import Mathlib

/-!
# obsidian_link_checker: a verification development

A shallow embedding of `main.go` (package `main`) and of the library calls it
makes, followed by theorems about the embedded functions.

Modelling conventions.

* A Go `string` is a sequence of bytes holding UTF-8 text.  It is embedded as
  `Str = List Char`; its length in bytes is `byteLen`.
* The operating system is embedded as an explicit state `FS`: a current working
  directory and a finite table from absolute paths (lists of names) to nodes
  (a directory, or a regular file with its content).  Symbolic links,
  permissions and I/O faults are outside the model; path separators are the
  Unix ones.
* A Go `map` is embedded as an association list with first-match lookup.  The
  iteration order of a Go map is unspecified, so statements about loops over a
  map are made for every order of the list.
* `lineNum` is an `int` printed with `%d`; it is embedded as a `Nat`.
-/

set_option autoImplicit false

namespace LinkChecker

/-! ## Strings -/

/-- A Go string. -/
abbrev Str := List Char

/-- Length in bytes of the UTF-8 encoding, Go's `len(s)`. -/
def byteLen (s : Str) : Nat := (s.map Char.utf8Size).sum

/-- The text of `strings.HasSuffix(s, suffix)`. -/
def hasSuffix (s suffix : Str) : Bool := suffix.isSuffixOf s

/-- The text of `strings.TrimSuffix(s, suffix)`. -/
def trimSuffix (s suffix : Str) : Str :=
  if hasSuffix s suffix then s.take (s.length - suffix.length) else s

/-- The document extension, the literal `".md"` of the source. -/
def mdExt : Str := ['.', 'm', 'd']

/-- Splits a string at every occurrence of `sep`; there is always at least one
piece, and pieces may be empty. -/
def splitSep (sep : Char) : Str → List Str
  | [] => [[]]
  | c :: cs =>
    if c = sep then [] :: splitSep sep cs
    else
      match splitSep sep cs with
      | [] => [[c]]
      | piece :: rest => (c :: piece) :: rest

/-! ## The regular expression `\[\[([^\]]+)\]\]` -/

/-- An anchored match of the pattern at the start of the input: two opening
brackets, the longest run of characters other than `]` (which has to be
non-empty), two closing brackets.  A shorter run can never be followed by `]]`,
so the greedy run is the only candidate.  The result is the captured group and
the length of the whole match. -/
def matchHere : Str → Option (Str × Nat)
  | '[' :: '[' :: t =>
    let run := t.takeWhile (fun c => c != ']')
    match t.dropWhile (fun c => c != ']') with
    | ']' :: ']' :: _ => if run.isEmpty then none else some (run, run.length + 4)
    | _ => none
  | _ => none

/-- The scan of `FindAllStringSubmatch`, with the number of characters still
covered by the previous match as first argument: inside a match no new match
starts; elsewhere the pattern is tried at the current position and, when it
fails, at the next one. -/
def findAllFrom : Nat → Str → List Str
  | _, [] => []
  | covered + 1, _ :: t => findAllFrom covered t
  | 0, c :: t =>
    match matchHere (c :: t) with
    | some (group, len) => group :: findAllFrom (len - 1) t
    | none => findAllFrom 0 t

/-- The captured groups of `re.FindAllStringSubmatch(line, -1)`, that is
`match[1]` of every match, leftmost first and non-overlapping. -/
def findAllStringSubmatch (line : Str) : List Str := findAllFrom 0 line

/-! ## `bufio.Scanner` with the default `ScanLines` split function -/

/-- The constant `bufio.MaxScanTokenSize`: the scanner's buffer never grows
beyond it, and a line that does not fit ends the scan with `ErrTooLong`. -/
def maxScanTokenSize : Nat := 65536

/-- The helper `dropCR` of `bufio.ScanLines`: one trailing carriage return is
removed. -/
def dropCR (s : Str) : Str :=
  if s.getLast? = some '\r' then s.dropLast else s

/-- The pieces between newlines; the piece after the last newline is a line
only when it is non-empty. -/
def rawLines (content : Str) : List Str :=
  let pieces := splitSep '\n' content
  if pieces.getLast? = some [] then pieces.dropLast else pieces

/-- The lines `scanner.Text()` yields for a file content, in order. -/
def textLines (content : Str) : List Str := (rawLines content).map dropCR

/-- A line, with its carriage return but without its newline, fits the buffer
when it is shorter than `maxScanTokenSize` bytes. -/
def linesFit (content : Str) : Prop :=
  ∀ l ∈ rawLines content, byteLen l < maxScanTokenSize

instance (content : Str) : Decidable (linesFit content) := by
  unfold linesFit; infer_instance

/-! ## Path names: package `path/filepath` -/

/-- The result of `filepath.IsAbs` on Unix: the name starts with a separator. -/
def isAbs (s : Str) : Bool := s.head? = some '/'

/-- Joins path elements with single separators. -/
def joinSep : List Str → Str
  | [] => []
  | [c] => c
  | c :: cs => c ++ '/' :: joinSep cs

/-- One element of the lexical processing of `filepath.Clean`: empty and `.`
elements disappear, a `..` element removes the element before it unless that
is itself `..`, and a `..` at the start is dropped in a rooted path and kept
in a relative one. -/
def cleanStep (rooted : Bool) (acc : List Str) (c : Str) : List Str :=
  if c = [] ∨ c = ['.'] then acc
  else if c = ['.', '.'] then
    match acc.getLast? with
    | some l => if l = ['.', '.'] then acc ++ [c] else acc.dropLast
    | none => if rooted then acc else acc ++ [c]
  else acc ++ [c]

/-- The function `filepath.Clean`. -/
def clean (s : Str) : Str :=
  let body := joinSep ((splitSep '/' s).foldl (cleanStep (isAbs s)) [])
  if isAbs s then '/' :: body else if body = [] then ['.'] else body

/-- The call `filepath.Join(a, b)`: empty elements are ignored, the others are
joined with a separator and cleaned. -/
def join (a b : Str) : Str :=
  if a = [] then (if b = [] then [] else clean b)
  else if b = [] then clean a
  else clean (a ++ '/' :: b)

/-- The function `filepath.Dir`: everything up to the last separator, cleaned. -/
def dir (s : Str) : Str :=
  clean (s.reverse.dropWhile (fun c => c != '/')).reverse

/-- The function `filepath.Base`: the last element, after trailing separators
are removed. -/
def base (s : Str) : Str :=
  if s = [] then ['.']
  else
    let b := ((s.reverse.dropWhile (fun c => c == '/')).takeWhile (fun c => c != '/')).reverse
    if b = [] then ['/'] else b

/-! ## The filesystem -/

/-- An absolute location: the names on the way from the filesystem root. -/
abbrev Path := List Str

/-- What a location holds. -/
inductive Node where
  | dir
  | file (content : Str)
  deriving DecidableEq, Repr

/-- The errors of the model: four `errno` values and `bufio.ErrTooLong`. -/
inductive Errno where
  | ENOENT
  | ENOTDIR
  | EISDIR
  | EEXIST
  | tooLong
  deriving DecidableEq, Repr

/-- The state of the operating system as the program sees it. -/
structure FS where
  cwd : Path
  nodes : List (Path × Node)
  deriving DecidableEq, Repr

/-- The node at an absolute location. -/
def FS.lookup (fs : FS) (p : Path) : Option Node := fs.nodes.lookup p

/-- Replaces the first entry for `p`, or adds one at the end. -/
def setNode (p : Path) (n : Node) : List (Path × Node) → List (Path × Node)
  | [] => [(p, n)]
  | e :: es => if e.1 = p then (p, n) :: es else e :: setNode p n es

/-- The state with node `n` at location `p`. -/
def FS.set (fs : FS) (p : Path) (n : Node) : FS :=
  ⟨fs.cwd, setNode p n fs.nodes⟩

/-- A name a directory entry can carry. -/
def validName (c : Str) : Bool :=
  c ≠ [] ∧ '/' ∉ c ∧ c ≠ ['.'] ∧ c ≠ ['.', '.']

/-- The states that are directory trees: the root and the working directory
are directories, every other node lies in a directory, no location is listed
twice, every name is a valid one. -/
def FS.wellFormed (fs : FS) : Bool :=
  fs.lookup [] = some Node.dir ∧ fs.lookup fs.cwd = some Node.dir ∧
  (fs.nodes.map Prod.fst).Nodup ∧
  ∀ e ∈ fs.nodes, (∀ c ∈ e.1, validName c = true) ∧ fs.lookup e.1.dropLast = some Node.dir

/-- The non-empty elements of a path name. -/
def components (s : Str) : List Str := (splitSep '/' s).filter (fun c => c ≠ [])

/-- Follows the elements of a path name from location `cur`.  Every location
an element is applied to has to be a directory. -/
def walkFrom (fs : FS) : Path → List Str → Except Errno Path
  | cur, [] => .ok cur
  | cur, c :: cs =>
    match fs.lookup cur with
    | some Node.dir =>
      if c = ['.'] then walkFrom fs cur cs
      else if c = ['.', '.'] then walkFrom fs cur.dropLast cs
      else walkFrom fs (cur ++ [c]) cs
    | some (Node.file _) => .error Errno.ENOTDIR
    | none => .error Errno.ENOENT

/-- Path-name resolution of the kernel, without symbolic links: the location a
name denotes, whether or not something exists there. -/
def resolve (fs : FS) (s : Str) : Except Errno Path :=
  if s = [] then .error Errno.ENOENT
  else walkFrom fs (if isAbs s then [] else fs.cwd) (components s)

/-- The calls `os.Lstat` and `os.Stat`: location and node of an existing name.
A name with a trailing separator has to denote a directory. -/
def lstat (fs : FS) (s : Str) : Except Errno (Path × Node) :=
  match resolve fs s with
  | .error e => .error e
  | .ok p =>
    match fs.lookup p with
    | none => .error Errno.ENOENT
    | some Node.dir => .ok (p, Node.dir)
    | some (Node.file content) =>
      if s.getLast? = some '/' then .error Errno.ENOTDIR else .ok (p, Node.file content)

/-- The call `os.Mkdir`. -/
def mkdir (fs : FS) (s : Str) : Except Errno FS :=
  match resolve fs s with
  | .error e => .error e
  | .ok p =>
    match fs.lookup p with
    | some _ => .error Errno.EEXIST
    | none => .ok (fs.set p Node.dir)

/-- The call `os.Create`, that is `OpenFile(name, O_RDWR|O_CREATE|O_TRUNC, 0666)`
followed by `Close`: an absent file is created empty and an existing file is
truncated to length zero. -/
def create (fs : FS) (s : Str) : Except Errno FS :=
  match resolve fs s with
  | .error e => .error e
  | .ok p =>
    if s.getLast? = some '/' then .error Errno.EISDIR
    else
      match fs.lookup p with
      | some Node.dir => .error Errno.EISDIR
      | _ => .ok (fs.set p (Node.file []))

/-- The parent of a path name as `os.MkdirAll` computes it: trailing
separators are skipped, then the last element is removed. -/
def parentOf (s : Str) : Str :=
  ((s.reverse.dropWhile (fun c => c == '/')).dropWhile (fun c => c != '/')).reverse

/-- The name itself, its parent, the parent of that, as long as they are
non-empty. -/
def parentChain (s : Str) : List Str :=
  (List.iterate parentOf s (s.length + 1)).takeWhile (fun p => p ≠ [])

/-- The recursion of `os.MkdirAll` along the chain of parents: an existing
directory ends it, an existing file is an error, otherwise the parent is made
first and then the directory itself.  Returns the state reached together with
the error, if any. -/
def mkdirAllChain : List Str → FS → FS × Option Errno
  | [], fs => (fs, none)
  | p :: parents, fs =>
    match lstat fs p with
    | .ok (_, Node.dir) => (fs, none)
    | .ok (_, Node.file _) => (fs, some Errno.ENOTDIR)
    | .error _ =>
      match mkdirAllChain parents fs with
      | (fs1, some e) => (fs1, some e)
      | (fs1, none) =>
        match mkdir fs1 p with
        | .ok fs2 => (fs2, none)
        | .error e =>
          match lstat fs1 p with
          | .ok (_, Node.dir) => (fs1, none)
          | _ => (fs1, some e)

/-- The call `os.MkdirAll(s, 0755)`. -/
def mkdirAll (fs : FS) (s : Str) : FS × Option Errno :=
  if s = [] then (fs, some Errno.ENOENT) else mkdirAllChain (parentChain s) fs

/-- The file information the walk hands to its callback. -/
structure FileInfo where
  name : Str
  isDir : Bool
  deriving DecidableEq, Repr

/-- The locations strictly below `p`, in lexical order: the order in which
`filepath.Walk` reaches them. -/
def below (fs : FS) (p : Path) : List Path :=
  ((fs.nodes.map Prod.fst).filter (fun q => p.isPrefixOf q && q != p)).insertionSort
    (fun a b => a ≤ b)

/-- The visits of `filepath.Walk(root, fn)` with a callback that never stops
the walk: the path name passed to `fn`, its file information, and the names
that lead from the root to the visited location.  The root is visited under
the name given; below it every name is `filepath.Join` of the directory's name
and the entry's name.  The walk fails when `os.Lstat(root)` does. -/
def walk (fs : FS) (root : Str) : Except Errno (List (Str × FileInfo × List Str)) :=
  match lstat fs root with
  | .error e => .error e
  | .ok (_, Node.file _) => .ok [(root, ⟨base root, false⟩, [])]
  | .ok (p, Node.dir) =>
    .ok ((root, ⟨base root, true⟩, []) ::
      (below fs p).map (fun q =>
        let rel := q.drop p.length
        (rel.foldl join root, ⟨q.getLast?.getD [], fs.lookup q == some Node.dir⟩, rel)))

/-! ## Go maps with slice values -/

/-- The statement `m[k] = append(m[k], v)`. -/
def mapAppend {β : Type} (k : Str) (v : β) : List (Str × List β) → List (Str × List β)
  | [] => [(k, [v])]
  | e :: es => if e.1 = k then (e.1, e.2 ++ [v]) :: es else e :: mapAppend k v es

/-- A link as `extractLinksFromFile` reports it, `[3]string{target, file, line}`. -/
abbrev Link := Str × Str × Nat

/-- Where a link occurs, `[2]string{file, line}`. -/
abbrev Location := Str × Nat

/-- The type `map[string][][2]string`. -/
abbrev LinkMap := List (Str × List Location)

/-! ## The program -/

/-- Function `findMarkdownFiles` of `main.go`. -/
def findMarkdownFiles (fs : FS) (rootDir : Str) : Except Errno (List Str) :=
  match walk fs rootDir with
  | .error e => .error e
  | .ok visits =>
    .ok ((visits.filter (fun v => !v.2.1.isDir && hasSuffix v.2.1.name mdExt)).map
      (fun v => v.1))

/-- The loop of `extractLinksFromFile` over the lines the scanner yields,
starting at line number `lineNum`.  A match of the pattern always carries its
group, so the test `len(match) > 1` holds for every match. -/
def scanLoop (filePath : Str) : Nat → List Str → List Link
  | _, [] => []
  | lineNum, line :: rest =>
    (findAllStringSubmatch line).map (fun target => (target, filePath, lineNum)) ++
      scanLoop filePath (lineNum + 1) rest

/-- Function `extractLinksFromFile` of `main.go`.  `os.Open` fails when the
name does not resolve; reading a directory fails; the scanner fails with
`ErrTooLong` when a line does not fit its buffer, and then the links already
collected are discarded. -/
def extractLinksFromFile (fs : FS) (filePath : Str) : Except Errno (List Link) :=
  match lstat fs filePath with
  | .error e => .error e
  | .ok (_, Node.dir) => .error Errno.EISDIR
  | .ok (_, Node.file content) =>
    if linesFit content then .ok (scanLoop filePath 1 (textLines content))
    else .error Errno.tooLong

/-- The loop of `getAllLinks` from an intermediate map. -/
def getAllLinksFrom (fs : FS) : LinkMap → List Str → Except Errno LinkMap
  | allLinks, [] => .ok allLinks
  | allLinks, file :: rest =>
    match extractLinksFromFile fs file with
    | .error e => .error e
    | .ok links =>
      getAllLinksFrom fs
        (links.foldl (fun m link => mapAppend link.1 (link.2.1, link.2.2) m) allLinks) rest

/-- Function `getAllLinks` of `main.go`. -/
def getAllLinks (fs : FS) (markdownFiles : List Str) : Except Errno LinkMap :=
  getAllLinksFrom fs [] markdownFiles

/-- The value of `filepath.Rel(rootDir, path)` for a path the walk of `rootDir`
produced: the names below the root, or `.` for the root itself.  For such a
pair `Rel` does not fail. -/
def relOf (rel : List Str) : Str := if rel = [] then ['.'] else joinSep rel

/-- Function `findExistingFiles` of `main.go`. -/
def findExistingFiles (fs : FS) (rootDir : Str) : Except Errno (List (Str × List Str)) :=
  match walk fs rootDir with
  | .error e => .error e
  | .ok visits =>
    .ok (visits.foldl
      (fun existingFiles v =>
        if !v.2.1.isDir && hasSuffix v.2.1.name mdExt then
          mapAppend (trimSuffix (base v.1) mdExt) (relOf v.2.2) existingFiles
        else existingFiles)
      [])

/-- Function `findMissingFiles` of `main.go`. -/
def findMissingFiles (fs : FS) (rootDir : Str) (allLinks : LinkMap) : Except Errno LinkMap :=
  match findExistingFiles fs rootDir with
  | .error e => .error e
  | .ok existingFiles =>
    .ok (allLinks.filter (fun entry => (existingFiles.lookup entry.1).isNone))

/-- Function `createMissingFiles` of `main.go`, visiting the keys in the order
of the list.  Returns the state reached and the error, if any: files made
before a failing key stay. -/
def createMissingFiles (rootDir : Str) : LinkMap → FS → FS × Option Errno
  | [], fs => (fs, none)
  | entry :: rest, fs =>
    let filePath := join rootDir (entry.1 ++ mdExt)
    match mkdirAll fs (dir filePath) with
    | (fs1, some e) => (fs1, some e)
    | (fs1, none) =>
      match create fs1 filePath with
      | .error e => (fs1, some e)
      | .ok fs2 => createMissingFiles rootDir rest fs2

/-- What the program writes to standard output.  Colour escapes are left out. -/
inductive Output where
  | text (s : String)
  | failure (phase : String) (e : Errno)
  | referenced (target : Str)
  | location (file : Str) (line : Nat)
  deriving DecidableEq, Repr

/-- A run of the program: its output, the filesystem it leaves, and whether it
called `createMissingFiles`. -/
structure Run where
  out : List Output
  fs : FS
  createCalled : Bool
  deriving DecidableEq, Repr

/-- The test `strings.ToLower(create) == "y"`.  No character other than `Y`
and `y` has lower case `y`. -/
def isYes (create : Str) : Bool := create.map Char.toLower == ['y']

/-- The report of the missing files, lines 148 to 154 of `main.go`. -/
def report (missingFiles : LinkMap) : List Output :=
  Output.text "Missing files:" ::
    (missingFiles.map (fun entry =>
      Output.referenced (entry.1 ++ mdExt) ::
        entry.2.map (fun loc => Output.location loc.1 loc.2))).flatten

/-- Function `main` of `main.go`.  `rootDir` is what the first `fmt.Scanln`
stores and `create` what the second one stores if it is reached. -/
def main (fs : FS) (rootDir create : Str) : Run :=
  let ask := Output.text "Enter the root directory of the Obsidian vault: "
  match findMarkdownFiles fs rootDir with
  | .error e => ⟨[ask, Output.failure "Error finding markdown files:" e], fs, false⟩
  | .ok markdownFiles =>
    match getAllLinks fs markdownFiles with
    | .error e => ⟨[ask, Output.failure "Error extracting links from files:" e], fs, false⟩
    | .ok allLinks =>
      match findMissingFiles fs rootDir allLinks with
      | .error e => ⟨[ask, Output.failure "Error finding missing files:" e], fs, false⟩
      | .ok missingFiles =>
        if missingFiles.length > 0 then
          let shown := ask :: report missingFiles ++
            [Output.text "Do you want to create these missing files? (y/n): "]
          if isYes create then
            match createMissingFiles rootDir missingFiles fs with
            | (fs1, some e) =>
              ⟨shown ++ [Output.failure "Error creating missing files:" e], fs1, true⟩
            | (fs1, none) => ⟨shown ++ [Output.text "Missing files created."], fs1, true⟩
          else ⟨shown ++ [Output.text "No files were created."], fs, false⟩
        else ⟨[ask, Output.text "No missing files found."], fs, false⟩

deriving instance DecidableEq for Except

/-! ## Notions of the specification -/

/-- The pattern occurs in `line` after the text `p`: `line` is `p`, `[[`, the
non-empty text `x` free of `]`, `]]`, and `r`. -/
def MatchAt (line p x r : Str) : Prop :=
  line = p ++ '[' :: '[' :: (x ++ ']' :: ']' :: r) ∧ x ≠ [] ∧ ']' ∉ x

/-- The successive leftmost non-overlapping matches of the pattern in a line,
written from the words of the specification: either the line holds no match,
or it holds one such that no match starts further left, and the list goes on
with the matches of the text after it. -/
inductive Matches : Str → List Str → Prop
  | done {s : Str} : (∀ p x r, ¬ MatchAt s p x r) → Matches s []
  | hit {s p x r : Str} {xs : List Str} :
      MatchAt s p x r → (∀ q y t, MatchAt s q y t → p.length ≤ q.length) →
      Matches r xs → Matches s (x :: xs)

/-- The occurrences for the groups found on lines 1, 2, ... of a file, line by
line. -/
def occurrencesOf (filePath : Str) (groups : List (List Str)) : List Link :=
  (groups.enum.map (fun g => g.2.map (fun target => (target, filePath, g.1 + 1)))).flatten

/-- The text before a link on its line leaves the link intact: it does not end
in an opening bracket, and every `[[` in it is followed, still inside it, by a
closing bracket. -/
def ClosedBefore (p : Str) : Prop :=
  p.getLast? ≠ some '[' ∧ ∀ t ∈ p.tails, ['[', '['].isPrefixOf t = true → ']' ∈ t

instance (p : Str) : Decidable (ClosedBefore p) := by
  unfold ClosedBefore; infer_instance

/-- A readable document: the name opens a regular file with the given content,
and the scanner reads that content to its end. -/
def Readable (fs : FS) (filePath content : Str) : Prop :=
  (∃ loc, lstat fs filePath = .ok (loc, Node.file content)) ∧ linesFit content

/-- The locations of the occurrences with target `t` in a list of links, in
the order of the list. -/
def locationsOf (t : Str) (links : List Link) : List Location :=
  (links.filter (fun l => l.1 == t)).map (fun l => (l.2.1, l.2.2))

/-- A document with base name `t` lies under the directory at `root`: some
regular file at a location below `root` is named `t` followed by `.md`. -/
def HasDocument (fs : FS) (root : Path) (t : Str) : Prop :=
  ∃ loc content, root <+: loc ∧ fs.lookup loc = some (Node.file content) ∧
    loc.getLast? = some (t ++ mdExt)

/-! ## Invariants of the loops -/

/-- The map `m` indexes the links `ls`: the invariant of the loops of
`getAllLinks`. -/
def Indexes (m : LinkMap) (ls : List Link) : Prop :=
  (m.map Prod.fst).Nodup ∧
  (∀ t, t ∈ m.map Prod.fst ↔ ∃ l ∈ ls, l.1 = t) ∧
  ∀ t, (m.lookup t).getD [] = locationsOf t ls

/-- The state `fs2` keeps what the creation of missing files relies on in
`fs1`: the working directory, every directory, and every empty file. -/
def Keeps (fs1 fs2 : FS) : Prop :=
  fs1.cwd = fs2.cwd ∧
  (∀ p, fs1.lookup p = some Node.dir → fs2.lookup p = some Node.dir) ∧
  (∀ p, fs1.lookup p = some (Node.file []) → fs2.lookup p = some (Node.file []))

/-- In state `fs` and in every state that keeps it, the steps of
`createMissingFiles` for the path `filePath` change nothing and leave an empty
file at that path. -/
def Settled (fs : FS) (filePath : Str) : Prop :=
  ∀ fs3, Keeps fs fs3 →
    mkdirAll fs3 (dir filePath) = (fs3, none) ∧ create fs3 filePath = .ok fs3 ∧
    ∃ loc, lstat fs3 filePath = .ok (loc, Node.file [])

/-! ## Example vaults -/

/-- The vault of the scenario of the specification: `a.md` links to `b` and to
`c` on its line 3, and `b.md` exists. -/
def noteVault : FS :=
  ⟨[], [([], Node.dir), (["v".toList], Node.dir),
    (["v".toList, "a.md".toList], Node.file "x\n\nSee [[b]] and [[c]].\n".toList),
    (["v".toList, "b.md".toList], Node.file [])]⟩

/-- The state of `noteVault` after `c.md` and `d/e.md` have been created. -/
def noteVaultAfter : FS :=
  ⟨[], [([], Node.dir), (["v".toList], Node.dir),
    (["v".toList, "a.md".toList], Node.file "x\n\nSee [[b]] and [[c]].\n".toList),
    (["v".toList, "b.md".toList], Node.file []),
    (["v".toList, "c.md".toList], Node.file []),
    (["v".toList, "d".toList], Node.dir),
    (["v".toList, "d".toList, "e.md".toList], Node.file [])]⟩

/-- A vault whose only document holds brackets the pattern does not take as
the reader might: a third opening bracket, an empty link, a closing bracket
inside a link. -/
def bracketVault : FS :=
  ⟨[], [([], Node.dir), (["v".toList], Node.dir),
    (["v".toList, "a.md".toList], Node.file "[[[a]]\n[[]]\n[[a]b]]\n".toList)]⟩

/-- A vault with a note in a folder and a document that links to it by its
path, `[[sub/x]]`. -/
def folderVault : FS :=
  ⟨[], [([], Node.dir), (["v".toList], Node.dir),
    (["v".toList, "a.md".toList], Node.file "[[sub/x]]\n".toList),
    (["v".toList, "sub".toList], Node.dir),
    (["v".toList, "sub".toList, "x.md".toList], Node.file "precious\n".toList)]⟩

/-- A vault whose only document links to a note in a folder that does not
exist yet. -/
def linkVault : FS :=
  ⟨[], [([], Node.dir), (["v".toList], Node.dir),
    (["v".toList, "a.md".toList], Node.file "[[sub/x]]\n".toList)]⟩

/-- The state of `linkVault` after the missing file has been created. -/
def linkVaultAfter : FS :=
  ⟨[], [([], Node.dir), (["v".toList], Node.dir),
    (["v".toList, "a.md".toList], Node.file "[[sub/x]]\n".toList),
    (["v".toList, "sub".toList], Node.dir),
    (["v".toList, "sub".toList, "x.md".toList], Node.file [])]⟩

/-- A vault at `/tmp/a/v` whose only document links to `../../etc/passwd`. -/
def traversalVault : FS :=
  ⟨[], [([], Node.dir), (["tmp".toList], Node.dir), (["tmp".toList, "a".toList], Node.dir),
    (["tmp".toList, "a".toList, "v".toList], Node.dir),
    (["tmp".toList, "a".toList, "v".toList, "a.md".toList],
      Node.file "[[../../etc/passwd]]\n".toList)]⟩

/-- The state of `traversalVault` after the creation of the missing file. -/
def traversalVaultAfter : FS :=
  ⟨[], [([], Node.dir), (["tmp".toList], Node.dir), (["tmp".toList, "a".toList], Node.dir),
    (["tmp".toList, "a".toList, "v".toList], Node.dir),
    (["tmp".toList, "a".toList, "v".toList, "a.md".toList],
      Node.file "[[../../etc/passwd]]\n".toList),
    (["tmp".toList, "etc".toList], Node.dir),
    (["tmp".toList, "etc".toList, "passwd.md".toList], Node.file [])]⟩

/-! ## The regular expression -/

theorem takeWhile_run (x r : Str) (hx : ']' ∉ x) :
    (x ++ ']' :: r).takeWhile (fun c => c != ']') = x := by
  induction x with
  | nil => simp
  | cons c x ih =>
    have hc : c ≠ ']' := fun h => hx (by simp [h])
    have hx2 : ']' ∉ x := fun h => hx (by simp [h])
    simp [List.takeWhile_cons, hc, ih hx2]

theorem dropWhile_run (x r : Str) (hx : ']' ∉ x) :
    (x ++ ']' :: r).dropWhile (fun c => c != ']') = ']' :: r := by
  induction x with
  | nil => simp
  | cons c x ih =>
    have hc : c ≠ ']' := fun h => hx (by simp [h])
    have hx2 : ']' ∉ x := fun h => hx (by simp [h])
    simp [List.dropWhile_cons, hc, ih hx2]

theorem not_mem_takeWhile_run (t : Str) : ']' ∉ t.takeWhile (fun c => c != ']') := by
  intro h
  have := List.mem_takeWhile_imp h
  simp at this

theorem matchHere_of_matchAt {x r : Str} (hx : x ≠ []) (hx2 : ']' ∉ x) :
    matchHere ('[' :: '[' :: (x ++ ']' :: ']' :: r)) = some (x, x.length + 4) := by
  simp only [matchHere, List.cons_append]
  rw [takeWhile_run x _ hx2, dropWhile_run x _ hx2]
  cases x with
  | nil => exact absurd rfl hx
  | cons c x => simp

theorem matchHere_some {s x : Str} {n : Nat} (h : matchHere s = some (x, n)) :
    ∃ r, s = '[' :: '[' :: (x ++ ']' :: ']' :: r) ∧ x ≠ [] ∧ ']' ∉ x ∧ n = x.length + 4 := by
  unfold matchHere at h
  split at h
  · rename_i t
    simp only at h
    split at h
    · rename_i r hd
      split at h
      · exact absurd h (by simp)
      · rename_i hne
        simp only [Option.some.injEq, Prod.mk.injEq] at h
        obtain ⟨h1, h2⟩ := h
        refine ⟨r, ?_, ?_, ?_, h2.symm ▸ by rw [h1]⟩
        · have := List.takeWhile_append_dropWhile (fun c => c != ']') t
          rw [hd, h1] at this
          rw [← this]
        · rw [← h1]; intro h0; exact hne (by simp [h0])
        · rw [← h1]; exact not_mem_takeWhile_run t
    · exact absurd h (by simp)
  · exact absurd h (by simp)

theorem findAllFrom_drop (n : Nat) (s : Str) : findAllFrom n s = findAllFrom 0 (s.drop n) := by
  induction n generalizing s with
  | zero => simp
  | succ n ih =>
    cases s with
    | nil => simp [findAllFrom]
    | cons c t => simp [findAllFrom, ih t]

theorem findAll_nil : findAllStringSubmatch [] = [] := rfl

theorem findAll_cons_none {c : Char} {t : Str} (h : matchHere (c :: t) = none) :
    findAllStringSubmatch (c :: t) = findAllStringSubmatch t := by
  simp [findAllStringSubmatch, findAllFrom, h]

theorem findAll_cons_some {c : Char} {t x : Str} {n : Nat} (h : matchHere (c :: t) = some (x, n)) :
    findAllStringSubmatch (c :: t) = x :: findAllStringSubmatch ((c :: t).drop n) := by
  obtain ⟨r, _, _, _, hn⟩ := matchHere_some h
  simp only [findAllStringSubmatch, findAllFrom, h]
  rw [findAllFrom_drop]
  subst hn
  simp

theorem findAll_match {x r : Str} (hx : x ≠ []) (hx2 : ']' ∉ x) :
    findAllStringSubmatch ('[' :: '[' :: (x ++ ']' :: ']' :: r)) =
      x :: findAllStringSubmatch r := by
  rw [findAll_cons_some (matchHere_of_matchAt hx hx2)]
  congr 1
  have : ('[' :: '[' :: (x ++ ']' :: ']' :: r)) = ('[' :: '[' :: (x ++ [']', ']'])) ++ r := by simp
  rw [this, List.drop_append_of_le_length (by simp)]
  simp

theorem matchHere_none_of_no_matchAt {s : Str} (h : ∀ x r, ¬ MatchAt s [] x r) :
    matchHere s = none := by
  cases hm : matchHere s with
  | none => rfl
  | some v =>
    obtain ⟨x, n⟩ := v
    obtain ⟨r, hs, hx, hx2, _⟩ := matchHere_some hm
    exact absurd ⟨by simpa using hs, hx, hx2⟩ (h x r)

theorem matchAt_nil_of_matchHere_none {s x r : Str} (h : matchHere s = none) :
    ¬ MatchAt s [] x r := by
  rintro ⟨hs, hx, hx2⟩
  simp only [List.nil_append] at hs
  rw [hs, matchHere_of_matchAt hx hx2] at h
  exact absurd h (by simp)

theorem Matches.cons_of_none {c : Char} {t : Str} {xs : List Str}
    (hnone : matchHere (c :: t) = none) (h : Matches t xs) : Matches (c :: t) xs := by
  cases h with
  | done hno =>
    refine Matches.done ?_
    intro p x r hm
    cases p with
    | nil => exact matchAt_nil_of_matchHere_none hnone hm
    | cons d p =>
      obtain ⟨hs, hx, hx2⟩ := hm
      simp only [List.cons_append, List.cons.injEq] at hs
      exact hno p x r ⟨hs.2, hx, hx2⟩
  | @hit _ p x r xs hm hleft hrest =>
    obtain ⟨hs, hx, hx2⟩ := hm
    refine Matches.hit (p := c :: p) ⟨by simp [hs], hx, hx2⟩ ?_ hrest
    intro q y u hq
    cases q with
    | nil => exact absurd hq (matchAt_nil_of_matchHere_none hnone)
    | cons d q =>
      obtain ⟨hs2, hy, hy2⟩ := hq
      simp only [List.cons_append, List.cons.injEq] at hs2
      have := hleft q y u ⟨hs2.2, hy, hy2⟩
      simp; omega

theorem matches_findAll_aux (n : Nat) :
    ∀ s : Str, s.length ≤ n → Matches s (findAllStringSubmatch s) := by
  induction n with
  | zero =>
    intro s hs
    have : s = [] := List.length_eq_zero.mp (by omega)
    subst this
    refine Matches.done ?_
    rintro p x r ⟨h, _, _⟩
    simp at h
  | succ n ih =>
    intro s hs
    cases s with
    | nil =>
      refine Matches.done ?_
      rintro p x r ⟨h, _, _⟩
      simp at h
    | cons c t =>
      cases hm : matchHere (c :: t) with
      | none =>
        rw [findAll_cons_none hm]
        exact Matches.cons_of_none hm (ih t (by simpa using hs))
      | some v =>
        obtain ⟨x, k⟩ := v
        obtain ⟨r, hs2, hx, hx2, hk⟩ := matchHere_some hm
        rw [hs2, findAll_match hx hx2]
        refine Matches.hit (p := []) ⟨by simp, hx, hx2⟩ (by intros; simp) (ih r ?_)
        have := congrArg List.length hs2
        simp at this hs
        omega

/-- The scan yields the leftmost non-overlapping matches. -/
theorem matches_findAll (s : Str) : Matches s (findAllStringSubmatch s) :=
  matches_findAll_aux s.length s (Nat.le_refl _)

theorem findAll_of_no_match (s : Str) (h : ∀ p x r, ¬ MatchAt s p x r) :
    findAllStringSubmatch s = [] := by
  induction s with
  | nil => rfl
  | cons c t ih =>
    rw [findAll_cons_none (matchHere_none_of_no_matchAt (h []))]
    refine ih ?_
    rintro p x r ⟨hs, hx, hx2⟩
    exact h (c :: p) x r ⟨by simp [hs], hx, hx2⟩

theorem findAll_skip (p s : Str) (h : ∀ q x r, MatchAt (p ++ s) q x r → p.length ≤ q.length) :
    findAllStringSubmatch (p ++ s) = findAllStringSubmatch s := by
  induction p with
  | nil => rfl
  | cons c p ih =>
    have hnone : matchHere (c :: p ++ s) = none := by
      refine matchHere_none_of_no_matchAt ?_
      intro x r hm
      have := h [] x r hm
      simp at this
    rw [List.cons_append, findAll_cons_none (by simpa using hnone)]
    refine ih ?_
    rintro q x r ⟨hs, hx, hx2⟩
    have := h (c :: q) x r ⟨by simp [hs], hx, hx2⟩
    simpa using this

/-- The relation `Matches` determines the list of groups. -/
theorem Matches.unique {s : Str} {xs : List Str} (h : Matches s xs) :
    xs = findAllStringSubmatch s := by
  induction h with
  | done hno => exact (findAll_of_no_match _ hno).symm
  | @hit s p x r xs hm hleft _ ih =>
    obtain ⟨hs, hx, hx2⟩ := hm
    subst hs
    rw [findAll_skip p _ hleft, findAll_match hx hx2, ih]


/-! ## The link extractor -/

theorem Matches.matchAt_of_mem {s : Str} {xs : List Str} (h : Matches s xs) :
    ∀ x ∈ xs, ∃ p r, MatchAt s p x r := by
  induction h with
  | done _ => intro x hx; simp at hx
  | @hit s p x r xs hm _ _ ih =>
    intro y hy
    rcases List.mem_cons.mp hy with rfl | hy
    · exact ⟨p, r, hm⟩
    · obtain ⟨q, t, hq, hy1, hy2⟩ := ih y hy
      obtain ⟨hs, _, _⟩ := hm
      exact ⟨p ++ '[' :: '[' :: (x ++ ']' :: ']' :: q), t, by rw [hs, hq]; simp, hy1, hy2⟩

theorem mem_scanLoop {filePath : Str} {lines : List Str} {k : Nat} {l : Link} :
    l ∈ scanLoop filePath k lines ↔
      ∃ i line, lines[i]? = some line ∧ l.1 ∈ findAllStringSubmatch line ∧
        l.2.1 = filePath ∧ l.2.2 = k + i := by
  induction lines generalizing k with
  | nil => simp [scanLoop]
  | cons line rest ih =>
    simp only [scanLoop, List.mem_append, List.mem_map, ih]
    constructor
    · rintro (⟨t, ht, rfl⟩ | ⟨i, ln, hi, ht, hf, hn⟩)
      · exact ⟨0, line, by simp, ht, rfl, rfl⟩
      · exact ⟨i + 1, ln, by simpa using hi, ht, hf, by omega⟩
    · rintro ⟨i, ln, hi, ht, hf, hn⟩
      cases i with
      | zero =>
        simp only [List.getElem?_cons_zero, Option.some.injEq] at hi
        subst hi
        exact Or.inl ⟨l.1, ht, by rw [← hf, ← show l.2.2 = k from hn]⟩
      | succ i =>
        exact Or.inr ⟨i, ln, by simpa using hi, ht, hf, by omega⟩

theorem scanLoop_eq_enumFrom (filePath : Str) (lines : List Str) (k : Nat) :
    scanLoop filePath (k + 1) lines =
      (((lines.map findAllStringSubmatch).enumFrom k).map
        (fun g => g.2.map (fun target => (target, filePath, g.1 + 1)))).flatten := by
  induction lines generalizing k with
  | nil => simp [scanLoop]
  | cons line rest ih => simp [scanLoop, List.enumFrom, ih (k + 1)]

theorem scanLoop_eq_occurrencesOf (filePath : Str) (lines : List Str) :
    scanLoop filePath 1 lines = occurrencesOf filePath (lines.map findAllStringSubmatch) := by
  simpa [occurrencesOf, List.enum] using scanLoop_eq_enumFrom filePath lines 0

theorem forall₂_matches_findAll (lines : List Str) :
    List.Forall₂ Matches lines (lines.map findAllStringSubmatch) := by
  induction lines with
  | nil => exact List.Forall₂.nil
  | cons l ls ih => exact List.Forall₂.cons (matches_findAll l) ih

theorem forall₂_matches_unique {lines : List Str} {groups : List (List Str)}
    (h : List.Forall₂ Matches lines groups) : groups = lines.map findAllStringSubmatch := by
  induction h with
  | nil => rfl
  | cons h _ ih => rw [List.map_cons, ← h.unique, ih]

theorem extract_of_readable {fs : FS} {filePath content : Str}
    (h : Readable fs filePath content) :
    extractLinksFromFile fs filePath = .ok (scanLoop filePath 1 (textLines content)) := by
  obtain ⟨⟨loc, hopen⟩, hfit⟩ := h
  simp [extractLinksFromFile, hopen, hfit]

/-- A document with a line that does not fit the scanner's buffer is not read
to its end: the extraction fails and reports no link. -/
theorem extract_too_long {fs : FS} {filePath content : Str} {loc : Path}
    (h : lstat fs filePath = .ok (loc, Node.file content)) (hl : ¬ linesFit content) :
    extractLinksFromFile fs filePath = .error Errno.tooLong := by
  simp [extractLinksFromFile, h, hl]


theorem ClosedBefore.of_append {u v : Str} (h : ClosedBefore (u ++ v)) : ClosedBefore v := by
  obtain ⟨h1, h2⟩ := h
  refine ⟨?_, ?_⟩
  · intro hv
    apply h1
    rw [List.getLast?_append, hv]
    rfl
  · intro t ht
    obtain ⟨w, rfl⟩ := (List.mem_tails _ _).1 ht
    exact h2 t ((List.mem_tails _ _).2 ⟨u ++ w, by simp⟩)

theorem findAll_closedBefore_aux (x s : Str) (hx : x ≠ []) (hx2 : ']' ∉ x) (n : Nat) :
    ∀ p : Str, p.length ≤ n → ClosedBefore p →
      x ∈ findAllStringSubmatch (p ++ '[' :: '[' :: (x ++ ']' :: ']' :: s)) := by
  induction n with
  | zero =>
    intro p hp _
    have : p = [] := List.length_eq_zero.mp (by omega)
    subst this
    rw [List.nil_append, findAll_match hx hx2]
    exact List.mem_cons_self _ _
  | succ n ih =>
    intro p hp hcl
    cases p with
    | nil =>
      rw [List.nil_append, findAll_match hx hx2]
      exact List.mem_cons_self _ _
    | cons c p =>
      have hcl1 : ClosedBefore p := ClosedBefore.of_append (u := [c]) hcl
      rw [List.cons_append]
      cases hm : matchHere (c :: (p ++ '[' :: '[' :: (x ++ ']' :: ']' :: s))) with
      | none =>
        rw [findAll_cons_none hm]
        exact ih p (by simpa using hp) hcl1
      | some v =>
        obtain ⟨y, k⟩ := v
        obtain ⟨r, hs, hy, hy2, _⟩ := matchHere_some hm
        rw [hs, findAll_match hy hy2]
        refine List.mem_cons_of_mem _ ?_
        simp only [List.cons.injEq] at hs
        obtain ⟨rfl, hs⟩ := hs
        cases p with
        | nil => exact absurd rfl hcl.1
        | cons d b =>
          simp only [List.cons_append, List.cons.injEq] at hs
          obtain ⟨rfl, hs⟩ := hs
          have hb : ']' ∈ b := by
            have := hcl.2 ('[' :: '[' :: b) ((List.mem_tails _ _).2 (List.suffix_refl _)) (by simp)
            simpa using this
          rcases List.append_eq_append_iff.mp hs with ⟨a, hya, _⟩ | ⟨e, hbe, he⟩
          · exact absurd (by rw [hya]; exact List.mem_append_left _ hb) hy2
          · cases e with
            | nil => simp at he
            | cons e1 e =>
              cases e with
              | nil => simp at he
              | cons e2 e =>
                simp only [List.cons_append, List.cons.injEq] at he
                obtain ⟨_, _, he⟩ := he
                rw [he]
                refine ih e ?_ ?_
                · have := congrArg List.length hbe
                  simp at this hp
                  omega
                · have : '[' :: '[' :: b = ('[' :: '[' :: (y ++ [e1, e2])) ++ e := by
                    rw [hbe]; simp
                  rw [this] at hcl
                  exact hcl.of_append

theorem findAll_closedBefore {p x s : Str} (hx : x ≠ []) (hx2 : ']' ∉ x) (hp : ClosedBefore p) :
    x ∈ findAllStringSubmatch (p ++ '[' :: '[' :: (x ++ ']' :: ']' :: s)) :=
  findAll_closedBefore_aux x s hx hx2 p.length p (Nat.le_refl _) hp

theorem findAll_no_open (s : Str) (h : '[' ∉ s) : findAllStringSubmatch s = [] := by
  induction s with
  | nil => rfl
  | cons c t ih =>
    have hc : c ≠ '[' := fun hc => h (by simp [hc])
    have hnone : matchHere (c :: t) = none := by
      unfold matchHere
      split
      · rename_i heq; simp only [List.cons.injEq] at heq; exact absurd heq.1 hc
      · rfl
    rw [findAll_cons_none hnone]
    exact ih (fun ht => h (List.mem_cons_of_mem _ ht))

theorem findAll_single_closing {a b : Str} (ha : a ≠ []) (ha1 : '[' ∉ a) (ha2 : ']' ∉ a)
    (hb : b ≠ []) (hb1 : '[' ∉ b) (hb2 : ']' ∉ b) :
    findAllStringSubmatch ('[' :: '[' :: (a ++ ']' :: (b ++ [']', ']']))) = [] := by
  obtain ⟨b0, b', rfl⟩ := List.exists_cons_of_ne_nil hb
  obtain ⟨a0, a', rfl⟩ := List.exists_cons_of_ne_nil ha
  have hb0 : b0 ≠ ']' := fun h => hb2 (by simp [h])
  have ha0 : a0 ≠ '[' := fun h => ha1 (by simp [h])
  have h1 : matchHere ('[' :: '[' :: ((a0 :: a') ++ ']' :: ((b0 :: b') ++ [']', ']']))) = none := by
    simp only [matchHere]
    rw [dropWhile_run _ _ ha2]
    simp [hb0]
  have h2 : matchHere ('[' :: ((a0 :: a') ++ ']' :: ((b0 :: b') ++ [']', ']']))) = none := by
    simp only [matchHere, List.cons_append]
    split
    · rename_i heq; simp only [List.cons.injEq] at heq; exact absurd heq.2.1 ha0
    · rfl
  rw [findAll_cons_none h1, findAll_cons_none h2]
  apply findAll_no_open
  simp only [List.mem_append, List.mem_cons, not_or]
  simp at ha1 hb1
  simp [ha1, hb1]


/-- C9: for a readable document, `extractLinksFromFile` returns exactly the
occurrences of the leftmost non-overlapping matches of the pattern on lines
1, 2, ... in order: the groups of the lines are the ones the relation
`Matches` describes, the relation leaves no choice, the result is their
line-by-line concatenation with the 1-based line numbers, and every reported
occurrence carries the given path, a non-empty target without `]`, and stands
as `[[target]]` on the line whose number it carries. -/
theorem extractLinksFromFile_leftmost_matches (fs : FS) (filePath content : Str)
    (h : Readable fs filePath content) :
    ∃ groups : List (List Str),
      List.Forall₂ Matches (textLines content) groups ∧
      (∀ other, List.Forall₂ Matches (textLines content) other → other = groups) ∧
      extractLinksFromFile fs filePath = .ok (occurrencesOf filePath groups) ∧
      ∀ l ∈ occurrencesOf filePath groups,
        l.2.1 = filePath ∧ 1 ≤ l.2.2 ∧
        ∃ line p r, (textLines content)[l.2.2 - 1]? = some line ∧ MatchAt line p l.1 r := by
  refine ⟨(textLines content).map findAllStringSubmatch, forall₂_matches_findAll _,
    fun other ho => forall₂_matches_unique ho, ?_, ?_⟩
  · rw [extract_of_readable h, scanLoop_eq_occurrencesOf]
  · intro l hl
    rw [← scanLoop_eq_occurrencesOf, mem_scanLoop] at hl
    obtain ⟨i, line, hi, ht, hf, hn⟩ := hl
    refine ⟨hf, by omega, ?_⟩
    obtain ⟨p, r, hm⟩ := (matches_findAll line).matchAt_of_mem _ ht
    exact ⟨line, p, r, by rw [hn]; simpa using hi, hm⟩

/-- C9, at the document `a.md` of the example vault. -/
theorem extractLinksFromFile_leftmost_matches_witness :
    Readable noteVault "/v/a.md".toList "x\n\nSee [[b]] and [[c]].\n".toList ∧
    ∃ groups : List (List Str),
      List.Forall₂ Matches (textLines "x\n\nSee [[b]] and [[c]].\n".toList) groups ∧
      (∀ other, List.Forall₂ Matches (textLines "x\n\nSee [[b]] and [[c]].\n".toList) other →
        other = groups) ∧
      extractLinksFromFile noteVault "/v/a.md".toList =
        .ok (occurrencesOf "/v/a.md".toList groups) ∧
      ∀ l ∈ occurrencesOf "/v/a.md".toList groups,
        l.2.1 = "/v/a.md".toList ∧ 1 ≤ l.2.2 ∧
        ∃ line p r, (textLines "x\n\nSee [[b]] and [[c]].\n".toList)[l.2.2 - 1]? = some line ∧
          MatchAt line p l.1 r :=
  have hr : Readable noteVault "/v/a.md".toList "x\n\nSee [[b]] and [[c]].\n".toList :=
    ⟨⟨["v".toList, "a.md".toList], by decide⟩, by decide⟩
  ⟨hr, extractLinksFromFile_leftmost_matches _ _ _ hr⟩

/-- C2 does not hold as stated: line 1 of the document is `[[[a]]`, which
contains `[[a]]`, and the only occurrence reported for it has target `[a`;
line 2 is `[[]]`, which is `[[X]]` for the empty `X`, and nothing is reported
for it. -/
theorem extract_misses_link :
    Readable bracketVault "/v/a.md".toList "[[[a]]\n[[]]\n[[a]b]]\n".toList ∧
    (textLines "[[[a]]\n[[]]\n[[a]b]]\n".toList)[0]? = some ("[".toList ++ "[[a]]".toList) ∧
    (textLines "[[[a]]\n[[]]\n[[a]b]]\n".toList)[1]? = some ("[[".toList ++ [] ++ "]]".toList) ∧
    extractLinksFromFile bracketVault "/v/a.md".toList =
      .ok [("[a".toList, "/v/a.md".toList, 1)] :=
  ⟨⟨⟨["v".toList, "a.md".toList], by decide⟩, by decide⟩, by decide, by decide, by decide⟩

/-- C2, amended: in a readable document, a link `[[x]]` with `x` non-empty and
free of `]`, standing on line `i + 1` after a text `p` that does not end in `[`
and in which every `[[` is followed by a `]`, is reported with target `x`, the
path of the document and line number `i + 1`. -/
theorem extract_reports_link (fs : FS) (filePath content : Str)
    (h : Readable fs filePath content) (i : Nat) (p x s : Str)
    (hx : x ≠ []) (hx2 : ']' ∉ x) (hp : ClosedBefore p)
    (hline : (textLines content)[i]? = some (p ++ '[' :: '[' :: (x ++ ']' :: ']' :: s))) :
    ∃ links, extractLinksFromFile fs filePath = .ok links ∧ (x, filePath, i + 1) ∈ links := by
  refine ⟨_, extract_of_readable h, ?_⟩
  rw [mem_scanLoop]
  exact ⟨i, _, hline, findAll_closedBefore hx hx2 hp, rfl, by simp; omega⟩

/-- C2, amended, at the second link of line 3 of `a.md` in the example vault. -/
theorem extract_reports_link_witness :
    ∃ links, extractLinksFromFile noteVault "/v/a.md".toList = .ok links ∧
      ("c".toList, "/v/a.md".toList, 3) ∈ links :=
  extract_reports_link noteVault "/v/a.md".toList "x\n\nSee [[b]] and [[c]].\n".toList
    ⟨⟨["v".toList, "a.md".toList], by decide⟩, by decide⟩ 2
    "See [[b]] and ".toList "c".toList ".".toList (by decide) (by decide) (by decide) (by decide)

/-- C10 does not hold as stated: line 3 of the document is `[[a]b]]`, and no
occurrence at all is reported for line 3, so none with target `a`. -/
theorem extract_closing_bracket_no_match :
    Readable bracketVault "/v/a.md".toList "[[[a]]\n[[]]\n[[a]b]]\n".toList ∧
    (textLines "[[[a]]\n[[]]\n[[a]b]]\n".toList)[2]? =
      some ("[[".toList ++ "a".toList ++ "]".toList ++ "b".toList ++ "]]".toList) ∧
    (∃ links, extractLinksFromFile bracketVault "/v/a.md".toList = .ok links ∧
      ("a".toList, "/v/a.md".toList, 3) ∉ links ∧ ∀ l ∈ links, l.2.2 ≠ 3) :=
  ⟨⟨⟨["v".toList, "a.md".toList], by decide⟩, by decide⟩, by decide,
    ⟨[("[a".toList, "/v/a.md".toList, 1)], by decide, by decide, by decide⟩⟩

/-- C10, amended: a single closing bracket inside the bracketed text prevents
the match.  When line `i + 1` of a readable document is `[[`, `a`, `]`, `b`,
`]]` with `a` and `b` non-empty and free of brackets, no occurrence is
reported for that line, neither with target `a` nor with any other. -/
theorem extract_single_closing_bracket (fs : FS) (filePath content : Str)
    (h : Readable fs filePath content) (i : Nat) (a b : Str)
    (ha : a ≠ []) (ha1 : '[' ∉ a) (ha2 : ']' ∉ a)
    (hb : b ≠ []) (hb1 : '[' ∉ b) (hb2 : ']' ∉ b)
    (hline : (textLines content)[i]? = some ('[' :: '[' :: (a ++ ']' :: (b ++ [']', ']'])))) :
    ∃ links, extractLinksFromFile fs filePath = .ok links ∧ ∀ l ∈ links, l.2.2 ≠ i + 1 := by
  refine ⟨_, extract_of_readable h, ?_⟩
  intro l hl hn
  rw [mem_scanLoop] at hl
  obtain ⟨j, line, hj, ht, _, hn2⟩ := hl
  have : j = i := by omega
  subst this
  rw [hline] at hj
  simp only [Option.some.injEq] at hj
  subst hj
  rw [findAll_single_closing ha ha1 ha2 hb hb1 hb2] at ht
  simp at ht

/-- C10, amended, at line 3 of the document of the bracket vault. -/
theorem extract_single_closing_bracket_witness :
    ∃ links, extractLinksFromFile bracketVault "/v/a.md".toList = .ok links ∧
      ∀ l ∈ links, l.2.2 ≠ 2 + 1 :=
  extract_single_closing_bracket bracketVault "/v/a.md".toList "[[[a]]\n[[]]\n[[a]b]]\n".toList
    ⟨⟨["v".toList, "a.md".toList], by decide⟩, by decide⟩ 2 "a".toList "b".toList
    (by decide) (by decide) (by decide) (by decide) (by decide) (by decide) (by decide)


/-! ## The link index -/

theorem lookup_mapAppend {β : Type} (k t : Str) (v : β) (m : List (Str × List β)) :
    (mapAppend k v m).lookup t =
      if t = k then some ((m.lookup k).getD [] ++ [v]) else m.lookup t := by
  induction m with
  | nil =>
    by_cases h : t = k
    · simp [mapAppend, List.lookup, h]
    · have htk : (t == k) = false := by simpa using h
      simp [mapAppend, List.lookup, h, htk]
  | cons e es ih =>
    obtain ⟨a, b⟩ := e
    by_cases hak : a = k
    · subst hak
      by_cases h : t = a
      · simp [mapAppend, List.lookup_cons, h]
      · have hta : (t == a) = false := by simpa using h
        simp [mapAppend, List.lookup_cons, h, hta]
    · by_cases h : t = k
      · subst h
        have hta : (t == a) = false := by simpa using fun h => hak h.symm
        simp [mapAppend, List.lookup_cons, hak, hta, ih]
      · by_cases hta : t = a
        · simp [mapAppend, List.lookup_cons, hak, hta]
        · have hta2 : (t == a) = false := by simpa using hta
          simp [mapAppend, List.lookup_cons, hak, hta2, ih, h]

theorem keys_mapAppend {β : Type} (k : Str) (v : β) (m : List (Str × List β)) :
    (mapAppend k v m).map Prod.fst =
      if k ∈ m.map Prod.fst then m.map Prod.fst else m.map Prod.fst ++ [k] := by
  induction m with
  | nil => simp [mapAppend]
  | cons e es ih =>
    obtain ⟨a, b⟩ := e
    by_cases hak : a = k
    · simp [mapAppend, hak]
    · have hka : ¬ k = a := fun h => hak h.symm
      by_cases hk : k ∈ es.map Prod.fst
      · rw [if_pos hk] at ih
        have hk2 : ∃ x, (k, x) ∈ es := by simpa using hk
        simp [mapAppend, hak, hka, ih, hk2]
      · rw [if_neg hk] at ih
        have hk2 : ¬ ∃ x, (k, x) ∈ es := by simpa using hk
        simp only [mapAppend, hak, if_false, List.map_cons, ih]
        simp [hka, hk2]

theorem nodup_keys_mapAppend {β : Type} (k : Str) (v : β) (m : List (Str × List β))
    (h : (m.map Prod.fst).Nodup) : ((mapAppend k v m).map Prod.fst).Nodup := by
  rw [keys_mapAppend]
  split
  · exact h
  · rename_i hk
    rw [List.nodup_append]
    refine ⟨h, List.nodup_singleton _, ?_⟩
    intro a ha hb
    simp only [List.mem_singleton] at hb
    exact hk (hb ▸ ha)

theorem mem_keys_mapAppend {β : Type} (k t : Str) (v : β) (m : List (Str × List β)) :
    t ∈ (mapAppend k v m).map Prod.fst ↔ t = k ∨ t ∈ m.map Prod.fst := by
  rw [keys_mapAppend]
  split
  · rename_i hk
    constructor
    · exact Or.inr
    · rintro (rfl | h)
      · exact hk
      · exact h
  · simp only [List.mem_append, List.mem_singleton]
    tauto

theorem Indexes.step {m : LinkMap} {ls : List Link} (h : Indexes m ls) (l : Link) :
    Indexes (mapAppend l.1 (l.2.1, l.2.2) m) (ls ++ [l]) := by
  obtain ⟨h1, h2, h3⟩ := h
  refine ⟨nodup_keys_mapAppend _ _ _ h1, ?_, ?_⟩
  · intro t
    rw [mem_keys_mapAppend, h2]
    simp only [List.mem_append, List.mem_singleton]
    constructor
    · rintro (rfl | ⟨l2, hl2, rfl⟩)
      · exact ⟨l, Or.inr rfl, rfl⟩
      · exact ⟨l2, Or.inl hl2, rfl⟩
    · rintro ⟨l2, hl2 | rfl, rfl⟩
      · exact Or.inr ⟨l2, hl2, rfl⟩
      · exact Or.inl rfl
  · intro t
    rw [lookup_mapAppend]
    by_cases ht : t = l.1
    · subst ht
      simp [locationsOf, List.filter_append, h3 l.1]
    · have : (l.1 == t) = false := by simpa using fun h => ht h.symm
      simp [locationsOf, List.filter_append, ht, this, h3 t, List.filter_cons]

theorem Indexes.foldl {m : LinkMap} {ls : List Link} (h : Indexes m ls) (links : List Link) :
    Indexes (links.foldl (fun m link => mapAppend link.1 (link.2.1, link.2.2) m) m)
      (ls ++ links) := by
  induction links generalizing m ls with
  | nil => simpa using h
  | cons l links ih =>
    have := ih (h.step l)
    simpa using this

theorem getAllLinksFrom_indexes (fs : FS) (files : List Str) (results : List (List Link))
    (h : List.Forall₂ (fun f r => extractLinksFromFile fs f = .ok r) files results)
    (m : LinkMap) (ls : List Link) (hm : Indexes m ls) :
    ∃ m2, getAllLinksFrom fs m files = .ok m2 ∧ Indexes m2 (ls ++ results.flatten) := by
  induction h generalizing m ls with
  | nil => exact ⟨m, rfl, by simpa using hm⟩
  | @cons f r _ _ hf _ ih =>
    obtain ⟨m2, h2, h3⟩ := ih _ _ (hm.foldl r)
    refine ⟨m2, ?_, by simpa using h3⟩
    simp only [getAllLinksFrom, hf]
    exact h2

/-- C7: when every extraction succeeds, `getAllLinks` returns a map without
repeated keys, whose keys are exactly the targets occurring in some document,
and whose value at a target is the list of the locations of all occurrences
with that target, in the order of the concatenated extraction results. -/
theorem getAllLinks_index (fs : FS) (markdownFiles : List Str) (results : List (List Link))
    (h : List.Forall₂ (fun f r => extractLinksFromFile fs f = .ok r) markdownFiles results) :
    ∃ allLinks, getAllLinks fs markdownFiles = .ok allLinks ∧
      (allLinks.map Prod.fst).Nodup ∧
      (∀ t, t ∈ allLinks.map Prod.fst ↔ ∃ l ∈ results.flatten, l.1 = t) ∧
      ∀ t ∈ allLinks.map Prod.fst,
        allLinks.lookup t = some (locationsOf t results.flatten) := by
  have h0 : Indexes [] [] := ⟨by simp, by simp, by simp [locationsOf]⟩
  obtain ⟨m, hm, h1, h2, h3⟩ := getAllLinksFrom_indexes fs markdownFiles results h [] [] h0
  simp only [List.nil_append] at h2 h3
  refine ⟨m, hm, h1, h2, ?_⟩
  intro t ht
  have := h3 t
  cases hl : m.lookup t with
  | none =>
    exfalso
    obtain ⟨e, he, rfl⟩ := List.mem_map.mp ht
    have := List.lookup_eq_none_iff.mp hl
    exact absurd (this e he) (by simp)
  | some locs =>
    rw [hl] at this
    simpa using this


/-- C7, at the two documents of the example vault. -/
theorem getAllLinks_index_witness :
    ∃ allLinks, getAllLinks noteVault ["/v/a.md".toList, "/v/b.md".toList] = .ok allLinks ∧
      (allLinks.map Prod.fst).Nodup ∧
      (∀ t, t ∈ allLinks.map Prod.fst ↔
        ∃ l ∈ [[("b".toList, "/v/a.md".toList, 3), ("c".toList, "/v/a.md".toList, 3)],
          []].flatten, l.1 = t) ∧
      ∀ t ∈ allLinks.map Prod.fst,
        allLinks.lookup t = some (locationsOf t
          [[("b".toList, "/v/a.md".toList, 3), ("c".toList, "/v/a.md".toList, 3)],
            []].flatten) :=
  getAllLinks_index noteVault ["/v/a.md".toList, "/v/b.md".toList]
    [[("b".toList, "/v/a.md".toList, 3), ("c".toList, "/v/a.md".toList, 3)], []]
    (List.Forall₂.cons (by decide) (List.Forall₂.cons (by decide) List.Forall₂.nil))


/-! ## The filesystem -/

theorem lookup_setNode (p q : Path) (n : Node) (l : List (Path × Node)) :
    (setNode p n l).lookup q = if q = p then some n else l.lookup q := by
  induction l with
  | nil =>
    by_cases h : q = p
    · simp [setNode, List.lookup, h]
    · have hqp : (q == p) = false := by simpa using h
      simp [setNode, List.lookup, h, hqp]
  | cons e es ih =>
    obtain ⟨a, b⟩ := e
    by_cases hap : a = p
    · subst hap
      by_cases h : q = a
      · simp [setNode, List.lookup_cons, h]
      · have hqa : (q == a) = false := by simpa using h
        simp [setNode, List.lookup_cons, h, hqa]
    · by_cases hqa : q = a
      · subst hqa
        simp [setNode, List.lookup_cons, hap]
      · have hqa2 : (q == a) = false := by simpa using hqa
        simp [setNode, List.lookup_cons, hap, hqa2, ih]

theorem lookup_set (fs : FS) (p q : Path) (n : Node) :
    (fs.set p n).lookup q = if q = p then some n else fs.lookup q :=
  lookup_setNode p q n fs.nodes

theorem setNode_same (p : Path) (n : Node) (l : List (Path × Node))
    (h : l.lookup p = some n) : setNode p n l = l := by
  induction l with
  | nil => simp [List.lookup] at h
  | cons e es ih =>
    obtain ⟨a, b⟩ := e
    by_cases hap : a = p
    · subst hap
      simp only [List.lookup_cons_self, Option.some.injEq] at h
      simp [setNode, h]
    · have hpa : (p == a) = false := by simpa using fun h => hap h.symm
      simp only [List.lookup_cons, hpa] at h
      simp [setNode, hap, ih h]

theorem set_same (fs : FS) (p : Path) (n : Node) (h : fs.lookup p = some n) :
    fs.set p n = fs := by
  cases fs with
  | mk cwd nodes => simp [FS.set, setNode_same p n nodes h]

theorem Keeps.refl (fs : FS) : Keeps fs fs := ⟨rfl, fun _ h => h, fun _ h => h⟩

theorem Keeps.trans {a b c : FS} (h1 : Keeps a b) (h2 : Keeps b c) : Keeps a c :=
  ⟨h1.1.trans h2.1, fun p h => h2.2.1 p (h1.2.1 p h), fun p h => h2.2.2 p (h1.2.2 p h)⟩

theorem walkFrom_keeps {fs1 fs2 : FS} (h : Keeps fs1 fs2) (cs : List Str) :
    ∀ (cur loc : Path), walkFrom fs1 cur cs = .ok loc → walkFrom fs2 cur cs = .ok loc := by
  induction cs with
  | nil => intro cur loc hw; simpa [walkFrom] using hw
  | cons c cs ih =>
    intro cur loc hw
    unfold walkFrom at hw ⊢
    cases hl : fs1.lookup cur with
    | none => rw [hl] at hw; simp at hw
    | some n =>
      cases n with
      | file content => rw [hl] at hw; simp at hw
      | dir =>
        rw [hl] at hw
        rw [h.2.1 cur hl]
        simp only at hw ⊢
        split
        · rename_i hc; rw [if_pos hc] at hw; exact ih _ _ hw
        · rename_i hc
          rw [if_neg hc] at hw
          split
          · rename_i hc2; rw [if_pos hc2] at hw; exact ih _ _ hw
          · rename_i hc2; rw [if_neg hc2] at hw; exact ih _ _ hw

theorem resolve_keeps {fs1 fs2 : FS} (h : Keeps fs1 fs2) {s : Str} {loc : Path}
    (hr : resolve fs1 s = .ok loc) : resolve fs2 s = .ok loc := by
  unfold resolve at hr ⊢
  split
  · rename_i hs; rw [if_pos hs] at hr; simp at hr
  · rename_i hs
    rw [if_neg hs] at hr
    rw [← h.1]
    exact walkFrom_keeps h _ _ _ hr

theorem lstat_dir_iff {fs : FS} {s : Str} {loc : Path} :
    lstat fs s = .ok (loc, Node.dir) ↔ resolve fs s = .ok loc ∧ fs.lookup loc = some Node.dir := by
  cases hr : resolve fs s with
  | error e => simp [lstat, hr]
  | ok p =>
    cases hl : fs.lookup p with
    | none =>
      simp only [lstat, hr, hl, Except.ok.injEq]
      constructor
      · intro h; simp at h
      · rintro ⟨rfl, h⟩; rw [hl] at h; simp at h
    | some n =>
      cases n with
      | dir =>
        simp only [lstat, hr, hl, Except.ok.injEq, Prod.mk.injEq, and_true]
        constructor
        · rintro rfl; exact ⟨rfl, hl⟩
        · rintro ⟨rfl, _⟩; rfl
      | file content =>
        simp only [lstat, hr, hl, Except.ok.injEq]
        constructor
        · intro h; split at h <;> simp at h
        · rintro ⟨rfl, h⟩; rw [hl] at h; simp at h

theorem lstat_file_iff {fs : FS} {s content : Str} {loc : Path} :
    lstat fs s = .ok (loc, Node.file content) ↔
      resolve fs s = .ok loc ∧ fs.lookup loc = some (Node.file content) ∧
        s.getLast? ≠ some '/' := by
  cases hr : resolve fs s with
  | error e => simp [lstat, hr]
  | ok p =>
    cases hl : fs.lookup p with
    | none =>
      simp only [lstat, hr, hl, Except.ok.injEq]
      constructor
      · intro h; simp at h
      · rintro ⟨rfl, h, _⟩; rw [hl] at h; simp at h
    | some n =>
      cases n with
      | dir =>
        simp only [lstat, hr, hl, Except.ok.injEq]
        constructor
        · intro h; simp at h
        · rintro ⟨rfl, h, _⟩; rw [hl] at h; simp at h
      | file c2 =>
        simp only [lstat, hr, hl, Except.ok.injEq]
        constructor
        · intro h
          split at h
          · simp at h
          · rename_i hs
            simp only [Except.ok.injEq, Prod.mk.injEq, Node.file.injEq] at h
            obtain ⟨rfl, rfl⟩ := h
            exact ⟨rfl, hl, hs⟩
        · rintro ⟨rfl, h, hs⟩
          rw [hl] at h
          simp only [Option.some.injEq, Node.file.injEq] at h
          rw [if_neg hs, h]

theorem lstat_dir_keeps {fs1 fs2 : FS} (h : Keeps fs1 fs2) {s : Str} {loc : Path}
    (hs : lstat fs1 s = .ok (loc, Node.dir)) : lstat fs2 s = .ok (loc, Node.dir) := by
  rw [lstat_dir_iff] at hs ⊢
  exact ⟨resolve_keeps h hs.1, h.2.1 _ hs.2⟩

theorem lstat_empty_keeps {fs1 fs2 : FS} (h : Keeps fs1 fs2) {s : Str} {loc : Path}
    (hs : lstat fs1 s = .ok (loc, Node.file [])) : lstat fs2 s = .ok (loc, Node.file []) := by
  rw [lstat_file_iff] at hs ⊢
  exact ⟨resolve_keeps h hs.1, h.2.2 _ hs.2.1, hs.2.2⟩

theorem keeps_set_dir (fs : FS) (p : Path) (h : fs.lookup p = none) :
    Keeps fs (fs.set p Node.dir) := by
  refine ⟨rfl, ?_, ?_⟩ <;>
  · intro q hq
    rw [lookup_set]
    split
    · rename_i hqp; exact absurd (hqp ▸ hq) (by rw [h]; simp)
    · exact hq

theorem keeps_set_empty (fs : FS) (p : Path) (h : fs.lookup p ≠ some Node.dir) :
    Keeps fs (fs.set p (Node.file [])) := by
  refine ⟨rfl, ?_, ?_⟩
  · intro q hq
    rw [lookup_set]
    split
    · rename_i hqp; rw [hqp] at hq; exact absurd hq h
    · exact hq
  · intro q hq
    rw [lookup_set]
    split
    · rfl
    · exact hq

theorem mkdir_ok {fs fs2 : FS} {s : Str} (h : mkdir fs s = .ok fs2) :
    Keeps fs fs2 ∧ ∃ loc, lstat fs2 s = .ok (loc, Node.dir) := by
  unfold mkdir at h
  cases hr : resolve fs s with
  | error e => rw [hr] at h; simp at h
  | ok p =>
    rw [hr] at h
    simp only at h
    cases hl : fs.lookup p with
    | some n => rw [hl] at h; simp at h
    | none =>
      rw [hl] at h
      simp only [Except.ok.injEq] at h
      subst h
      have hk := keeps_set_dir fs p hl
      refine ⟨hk, p, ?_⟩
      rw [lstat_dir_iff]
      exact ⟨resolve_keeps hk hr, by simp [lookup_set]⟩

theorem create_ok {fs fs2 : FS} {s : Str} (h : create fs s = .ok fs2) :
    Keeps fs fs2 ∧ ∃ loc, lstat fs2 s = .ok (loc, Node.file []) := by
  unfold create at h
  cases hr : resolve fs s with
  | error e => rw [hr] at h; simp at h
  | ok p =>
    rw [hr] at h
    simp only at h
    split at h
    · simp at h
    · rename_i hs
      have hnd : fs.lookup p ≠ some Node.dir := by
        intro hd; rw [hd] at h; simp at h
      have h2 : fs2 = fs.set p (Node.file []) := by
        split at h
        · simp at h
        · simpa using h.symm
      subst h2
      have hk := keeps_set_empty fs p hnd
      refine ⟨hk, p, ?_⟩
      rw [lstat_file_iff]
      exact ⟨resolve_keeps hk hr, by simp [lookup_set], hs⟩

theorem create_of_empty {fs : FS} {s : Str} {loc : Path}
    (h : lstat fs s = .ok (loc, Node.file [])) : create fs s = .ok fs := by
  rw [lstat_file_iff] at h
  obtain ⟨hr, hl, hs⟩ := h
  unfold create
  rw [hr]
  simp only [hs, if_false, hl]
  rw [set_same fs loc _ hl]

theorem mkdirAllChain_ok (ps : List Str) :
    ∀ (fs fs2 : FS), mkdirAllChain ps fs = (fs2, none) →
      Keeps fs fs2 ∧ ∀ p rest, ps = p :: rest → ∃ loc, lstat fs2 p = .ok (loc, Node.dir) := by
  induction ps with
  | nil =>
    intro fs fs2 h
    simp only [mkdirAllChain, Prod.mk.injEq, and_true] at h
    subst h
    exact ⟨Keeps.refl _, by intro p rest h; simp at h⟩
  | cons p parents ih =>
    intro fs fs2 h
    unfold mkdirAllChain at h
    have key : Keeps fs fs2 ∧ ∃ loc, lstat fs2 p = .ok (loc, Node.dir) := by
      cases hl : lstat fs p with
      | ok v =>
        obtain ⟨loc, n⟩ := v
        cases n with
        | dir =>
          rw [hl] at h
          simp only [Prod.mk.injEq, and_true] at h
          subst h
          exact ⟨Keeps.refl _, loc, hl⟩
        | file content => rw [hl] at h; simp at h
      | error e =>
        rw [hl] at h
        simp only at h
        cases hrec : mkdirAllChain parents fs with
        | mk fs1 err =>
          rw [hrec] at h
          cases err with
          | some e1 => simp at h
          | none =>
            simp only at h
            have hk1 := (ih fs fs1 hrec).1
            cases hm : mkdir fs1 p with
            | ok fs3 =>
              rw [hm] at h
              simp only [Prod.mk.injEq, and_true] at h
              subst h
              obtain ⟨hk2, hd⟩ := mkdir_ok hm
              exact ⟨hk1.trans hk2, hd⟩
            | error e2 =>
              rw [hm] at h
              simp only at h
              cases hl2 : lstat fs1 p with
              | error e3 => rw [hl2] at h; simp at h
              | ok v =>
                obtain ⟨loc, n⟩ := v
                cases n with
                | file content => rw [hl2] at h; simp at h
                | dir =>
                  rw [hl2] at h
                  simp only [Prod.mk.injEq, and_true] at h
                  subst h
                  exact ⟨hk1, loc, hl2⟩
    refine ⟨key.1, ?_⟩
    intro q rest hq
    simp only [List.cons.injEq] at hq
    obtain ⟨rfl, _⟩ := hq
    exact key.2

theorem parentChain_cons {s : Str} (h : s ≠ []) : ∃ rest, parentChain s = s :: rest := by
  unfold parentChain
  rw [List.iterate, List.takeWhile_cons]
  simp [h]

theorem mkdirAll_ok {fs fs2 : FS} {s : Str} (h : mkdirAll fs s = (fs2, none)) :
    Keeps fs fs2 ∧ ∃ loc, lstat fs2 s = .ok (loc, Node.dir) := by
  unfold mkdirAll at h
  split at h
  · simp at h
  · rename_i hs
    obtain ⟨rest, hc⟩ := parentChain_cons hs
    obtain ⟨hk, hd⟩ := mkdirAllChain_ok _ _ _ h
    exact ⟨hk, hd s rest hc⟩

theorem mkdirAll_of_dir {fs : FS} {s : Str} {loc : Path}
    (h : lstat fs s = .ok (loc, Node.dir)) : mkdirAll fs s = (fs, none) := by
  have hs : s ≠ [] := by
    rintro rfl
    simp [lstat, resolve] at h
  obtain ⟨rest, hc⟩ := parentChain_cons hs
  unfold mkdirAll
  rw [if_neg hs, hc]
  simp [mkdirAllChain, h]

theorem Settled.keeps {fs fs2 : FS} {filePath : Str} (h : Settled fs filePath)
    (hk : Keeps fs fs2) : Settled fs2 filePath :=
  fun fs3 h3 => h fs3 (hk.trans h3)

theorem createMissingFiles_ok (rootDir : Str) (missingFiles : LinkMap) :
    ∀ (fs fs2 : FS), createMissingFiles rootDir missingFiles fs = (fs2, none) →
      Keeps fs fs2 ∧
      ∀ entry ∈ missingFiles, Settled fs2 (join rootDir (entry.1 ++ mdExt)) := by
  induction missingFiles with
  | nil =>
    intro fs fs2 h
    simp only [createMissingFiles, Prod.mk.injEq, and_true] at h
    subst h
    exact ⟨Keeps.refl _, by simp⟩
  | cons entry rest ih =>
    intro fs fs2 h
    unfold createMissingFiles at h
    simp only at h
    cases hm : mkdirAll fs (dir (join rootDir (entry.1 ++ mdExt))) with
    | mk fs1 err =>
      rw [hm] at h
      cases err with
      | some e => simp at h
      | none =>
        simp only at h
        cases hc : create fs1 (join rootDir (entry.1 ++ mdExt)) with
        | error e => rw [hc] at h; simp at h
        | ok fs3 =>
          rw [hc] at h
          simp only at h
          obtain ⟨hk1, locd, hd⟩ := mkdirAll_ok hm
          obtain ⟨hk2, locf, hf⟩ := create_ok hc
          obtain ⟨hk3, hrest⟩ := ih fs3 fs2 h
          refine ⟨(hk1.trans hk2).trans hk3, ?_⟩
          intro e he
          rcases List.mem_cons.mp he with rfl | he
          · intro fs4 hk4
            have hk : Keeps fs3 fs4 := hk3.trans hk4
            have hf4 := lstat_empty_keeps hk hf
            exact ⟨mkdirAll_of_dir (lstat_dir_keeps (hk2.trans hk) hd), create_of_empty hf4,
              locf, hf4⟩
          · exact hrest e he

theorem createMissingFiles_settled (rootDir : Str) (again : LinkMap) (fs : FS)
    (h : ∀ entry ∈ again, Settled fs (join rootDir (entry.1 ++ mdExt))) :
    createMissingFiles rootDir again fs = (fs, none) := by
  induction again with
  | nil => rfl
  | cons entry rest ih =>
    obtain ⟨h1, h2, _⟩ := h entry (List.mem_cons_self _ _) fs (Keeps.refl fs)
    unfold createMissingFiles
    simp only [h1, h2]
    exact ih (fun e he => h e (List.mem_cons_of_mem _ he))


/-! ## The materializer -/

/-- C6: when `createMissingFiles` succeeds, running it again on the state it
left, for the same map visited in any order, succeeds and leaves that state
unchanged. -/
theorem createMissingFiles_idempotent (rootDir : Str) (missingFiles again : LinkMap)
    (fs fs2 : FS) (hsame : again.Perm missingFiles)
    (h : createMissingFiles rootDir missingFiles fs = (fs2, none)) :
    createMissingFiles rootDir again fs2 = (fs2, none) := by
  obtain ⟨_, hs⟩ := createMissingFiles_ok rootDir missingFiles fs fs2 h
  exact createMissingFiles_settled rootDir again fs2
    (fun e he => hs e (hsame.mem_iff.mp he))

/-- C6, at the example vault with two missing targets, the second run visiting
them in the opposite order. -/
theorem createMissingFiles_idempotent_witness :
    createMissingFiles "/v".toList
        [("c".toList, [("/v/a.md".toList, 3)]), ("d/e".toList, [("/v/a.md".toList, 4)])]
        noteVault = (noteVaultAfter, none) ∧
    createMissingFiles "/v".toList
        [("d/e".toList, [("/v/a.md".toList, 4)]), ("c".toList, [("/v/a.md".toList, 3)])]
        noteVaultAfter = (noteVaultAfter, none) :=
  have h : createMissingFiles "/v".toList
      [("c".toList, [("/v/a.md".toList, 3)]), ("d/e".toList, [("/v/a.md".toList, 4)])]
      noteVault = (noteVaultAfter, none) := by decide
  ⟨h, createMissingFiles_idempotent _ _ _ _ _ (List.Perm.swap _ _ _) h⟩

/-- C4 does not hold as stated: in a vault at `/tmp/a/v` whose document links
to `../../etc/passwd`, that target is a key of the missing-link set, and
`createMissingFiles` returns without error after making the directory
`/tmp/etc` and the file `/tmp/etc/passwd.md`, both outside `/tmp/a/v` and both
absent before. -/
theorem createMissingFiles_leaves_root :
    traversalVault.wellFormed = true ∧
    getAllLinks traversalVault ["/tmp/a/v/a.md".toList] =
      .ok [("../../etc/passwd".toList, [("/tmp/a/v/a.md".toList, 1)])] ∧
    findMissingFiles traversalVault "/tmp/a/v".toList
        [("../../etc/passwd".toList, [("/tmp/a/v/a.md".toList, 1)])] =
      .ok [("../../etc/passwd".toList, [("/tmp/a/v/a.md".toList, 1)])] ∧
    join "/tmp/a/v".toList ("../../etc/passwd".toList ++ mdExt) = "/tmp/etc/passwd.md".toList ∧
    createMissingFiles "/tmp/a/v".toList
        [("../../etc/passwd".toList, [("/tmp/a/v/a.md".toList, 1)])]
        traversalVault = (traversalVaultAfter, none) ∧
    traversalVault.lookup ["tmp".toList, "etc".toList] = none ∧
    traversalVault.lookup ["tmp".toList, "etc".toList, "passwd.md".toList] = none ∧
    traversalVaultAfter.lookup ["tmp".toList, "etc".toList] = some Node.dir ∧
    traversalVaultAfter.lookup ["tmp".toList, "etc".toList, "passwd.md".toList] =
      some (Node.file []) ∧
    ¬ ["tmp".toList, "a".toList, "v".toList] <+: ["tmp".toList, "etc".toList] ∧
    ¬ ["tmp".toList, "a".toList, "v".toList] <+:
      ["tmp".toList, "etc".toList, "passwd.md".toList] := by
  refine ⟨by decide, by decide, by decide, by decide, by decide, by decide, by decide,
    by decide, by decide, by decide, by decide⟩

/-- C4, amended: `createMissingFiles` does not examine where the path of a key
lies.  Whenever it returns without error, an empty regular file exists at
`filepath.Join(rootDir, key + ".md")` for every key of the map, also for a key
whose path lies outside `rootDir`. -/
theorem createMissingFiles_creates_every_key (rootDir : Str) (missingFiles : LinkMap)
    (fs fs2 : FS) (h : createMissingFiles rootDir missingFiles fs = (fs2, none)) :
    ∀ entry ∈ missingFiles,
      ∃ loc, lstat fs2 (join rootDir (entry.1 ++ mdExt)) = .ok (loc, Node.file []) := by
  obtain ⟨_, hs⟩ := createMissingFiles_ok rootDir missingFiles fs fs2 h
  intro e he
  exact (hs e he fs2 (Keeps.refl fs2)).2.2

/-- C4, amended, at the key `../../etc/passwd` of the traversal vault. -/
theorem createMissingFiles_creates_every_key_witness :
    createMissingFiles "/tmp/a/v".toList
        [("../../etc/passwd".toList, [("/tmp/a/v/a.md".toList, 1)])]
        traversalVault = (traversalVaultAfter, none) ∧
    ∃ loc, lstat traversalVaultAfter
        (join "/tmp/a/v".toList ("../../etc/passwd".toList ++ mdExt)) =
      .ok (loc, Node.file []) :=
  have h : createMissingFiles "/tmp/a/v".toList
      [("../../etc/passwd".toList, [("/tmp/a/v/a.md".toList, 1)])]
      traversalVault = (traversalVaultAfter, none) := by decide
  ⟨h, createMissingFiles_creates_every_key "/tmp/a/v".toList
    [("../../etc/passwd".toList, [("/tmp/a/v/a.md".toList, 1)])] traversalVault
    traversalVaultAfter h
    ("../../etc/passwd".toList, [("/tmp/a/v/a.md".toList, 1)]) (List.mem_singleton_self _)⟩

/-- C3: the code at the failing input.  In a vault at `/v` with the note
`sub/x.md` and a document that links to it as `[[sub/x]]`, the target `sub/x`
is in the missing-link set, because documents are indexed by their base name
`x`; `createMissingFiles` then returns without error and the note, which held
`precious`, is empty. -/
theorem createMissingFiles_truncates_note :
    folderVault.wellFormed = true ∧
    findMarkdownFiles folderVault "/v".toList = .ok ["/v/a.md".toList, "/v/sub/x.md".toList] ∧
    getAllLinks folderVault ["/v/a.md".toList, "/v/sub/x.md".toList] =
      .ok [("sub/x".toList, [("/v/a.md".toList, 1)])] ∧
    findMissingFiles folderVault "/v".toList [("sub/x".toList, [("/v/a.md".toList, 1)])] =
      .ok [("sub/x".toList, [("/v/a.md".toList, 1)])] ∧
    folderVault.lookup ["v".toList, "sub".toList, "x.md".toList] =
      some (Node.file "precious\n".toList) ∧
    (createMissingFiles "/v".toList [("sub/x".toList, [("/v/a.md".toList, 1)])]
      folderVault).2 = none ∧
    (createMissingFiles "/v".toList [("sub/x".toList, [("/v/a.md".toList, 1)])]
      folderVault).1.lookup ["v".toList, "sub".toList, "x.md".toList] =
      some (Node.file []) ∧
    (main folderVault "/v".toList "y".toList).fs.lookup
      ["v".toList, "sub".toList, "x.md".toList] = some (Node.file []) := by
  refine ⟨by decide, by decide, by decide, by decide, by decide, by decide, by decide,
    by decide⟩

/-- C5: the code at the failing input.  In a vault at `/v` whose document
links to `[[sub/x]]`, the missing-link set is `sub/x`; `createMissingFiles`
succeeds and makes `/v/sub/x.md`; recomputing on the new state yields the same
missing-link set, with the key `sub/x` still in it. -/
theorem round_trip_keeps_path_target :
    linkVault.wellFormed = true ∧
    findMarkdownFiles linkVault "/v".toList = .ok ["/v/a.md".toList] ∧
    getAllLinks linkVault ["/v/a.md".toList] =
      .ok [("sub/x".toList, [("/v/a.md".toList, 1)])] ∧
    findMissingFiles linkVault "/v".toList [("sub/x".toList, [("/v/a.md".toList, 1)])] =
      .ok [("sub/x".toList, [("/v/a.md".toList, 1)])] ∧
    createMissingFiles "/v".toList [("sub/x".toList, [("/v/a.md".toList, 1)])] linkVault =
      (linkVaultAfter, none) ∧
    findMarkdownFiles linkVaultAfter "/v".toList =
      .ok ["/v/a.md".toList, "/v/sub/x.md".toList] ∧
    getAllLinks linkVaultAfter ["/v/a.md".toList, "/v/sub/x.md".toList] =
      .ok [("sub/x".toList, [("/v/a.md".toList, 1)])] ∧
    findMissingFiles linkVaultAfter "/v".toList [("sub/x".toList, [("/v/a.md".toList, 1)])] =
      .ok [("sub/x".toList, [("/v/a.md".toList, 1)])] := by
  refine ⟨by decide, by decide, by decide, by decide, by decide, by decide, by decide,
    by decide⟩


/-! ## The driver -/

theorem toLower_eq_y (c : Char) : c.toLower = 'y' ↔ c = 'y' ∨ c = 'Y' := by
  constructor
  · intro h
    by_cases hr : c.toNat ≥ 65 ∧ c.toNat ≤ 90
    · right
      have h3 : Char.ofNat (c.toNat + 32) = 'y' := by
        simpa [Char.toLower, hr] using h
      have h1 : 65 ≤ c.toNat := hr.1
      have h2 : c.toNat ≤ 90 := hr.2
      have hc : c = Char.ofNat c.toNat := (Char.ofNat_toNat c).symm
      generalize c.toNat = n at h3 h1 h2 hc
      subst hc
      interval_cases n <;> first | rfl | (exact absurd h3 (by decide))
    · left
      simpa [Char.toLower, hr] using h
  · rintro (rfl | rfl) <;> decide

theorem isYes_iff (create : Str) : isYes create = true ↔ create = ['y'] ∨ create = ['Y'] := by
  unfold isYes
  cases create with
  | nil => simp
  | cons c rest =>
    cases rest with
    | nil => simp [toLower_eq_y]
    | cons d rest => simp


theorem getLast?_shown {α : Type} (a b c : α) (l : List α) :
    (a :: (l ++ [b, c])).getLast? = some c := by
  have : a :: (l ++ [b, c]) = (a :: (l ++ [b])) ++ [c] := by simp
  rw [this, List.getLast?_concat]

/-- C8: once scanning, aggregation and reconciliation have succeeded with the
missing-link set `missingFiles`, the driver calls `createMissingFiles` exactly
when the set is non-empty and the confirmation token is `y` or `Y`.  When it
calls, the filesystem it leaves is the one `createMissingFiles` leaves and the
last line is the success line or the error of the call.  For a non-empty set
and any other token the filesystem is unchanged and the last line is
`No files were created.`  For an empty set the filesystem is unchanged and the
output is the first prompt followed by `No missing files found.`, without the
confirmation prompt. -/
theorem main_confirmation (fs : FS) (rootDir create : Str) (markdownFiles : List Str)
    (allLinks missingFiles : LinkMap)
    (h1 : findMarkdownFiles fs rootDir = .ok markdownFiles)
    (h2 : getAllLinks fs markdownFiles = .ok allLinks)
    (h3 : findMissingFiles fs rootDir allLinks = .ok missingFiles) :
    ((main fs rootDir create).createCalled = true ↔
      missingFiles ≠ [] ∧ (create = ['y'] ∨ create = ['Y'])) ∧
    ((main fs rootDir create).createCalled = true →
      (main fs rootDir create).fs = (createMissingFiles rootDir missingFiles fs).1 ∧
      (main fs rootDir create).out.getLast? = some
        (match (createMissingFiles rootDir missingFiles fs).2 with
          | none => Output.text "Missing files created."
          | some e => Output.failure "Error creating missing files:" e)) ∧
    (missingFiles ≠ [] → ¬ (create = ['y'] ∨ create = ['Y']) →
      (main fs rootDir create).fs = fs ∧
      (main fs rootDir create).out.getLast? = some (Output.text "No files were created.")) ∧
    (missingFiles = [] →
      (main fs rootDir create).fs = fs ∧
      (main fs rootDir create).out =
        [Output.text "Enter the root directory of the Obsidian vault: ",
          Output.text "No missing files found."]) := by
  cases missingFiles with
  | nil => simp [main, h1, h2, h3]
  | cons entry rest =>
    by_cases hy : isYes create = true
    · have hy2 := (isYes_iff create).mp hy
      cases hc : createMissingFiles rootDir (entry :: rest) fs with
      | mk fs1 err =>
        cases err with
        | none => simp [main, h1, h2, h3, hy, hy2, hc, getLast?_shown]
        | some e => simp [main, h1, h2, h3, hy, hy2, hc, getLast?_shown]
    · have hy2 : ¬ (create = ['y'] ∨ create = ['Y']) := fun h => hy ((isYes_iff create).mpr h)
      simp [main, h1, h2, h3, hy, hy2, getLast?_shown]

/-- C8, at the example vault with the token `Y`. -/
theorem main_confirmation_witness :
    ((main noteVault "/v".toList "Y".toList).createCalled = true ↔
      [("c".toList, [("/v/a.md".toList, 3)])] ≠ [] ∧
        ("Y".toList = ['y'] ∨ "Y".toList = ['Y'])) ∧
    ((main noteVault "/v".toList "Y".toList).createCalled = true →
      (main noteVault "/v".toList "Y".toList).fs =
        (createMissingFiles "/v".toList [("c".toList, [("/v/a.md".toList, 3)])] noteVault).1 ∧
      (main noteVault "/v".toList "Y".toList).out.getLast? = some
        (match (createMissingFiles "/v".toList [("c".toList, [("/v/a.md".toList, 3)])]
            noteVault).2 with
          | none => Output.text "Missing files created."
          | some e => Output.failure "Error creating missing files:" e)) ∧
    ([("c".toList, [("/v/a.md".toList, 3)])] ≠ [] → ¬ ("Y".toList = ['y'] ∨ "Y".toList = ['Y']) →
      (main noteVault "/v".toList "Y".toList).fs = noteVault ∧
      (main noteVault "/v".toList "Y".toList).out.getLast? =
        some (Output.text "No files were created.")) ∧
    ([("c".toList, [("/v/a.md".toList, 3)])] = [] →
      (main noteVault "/v".toList "Y".toList).fs = noteVault ∧
      (main noteVault "/v".toList "Y".toList).out =
        [Output.text "Enter the root directory of the Obsidian vault: ",
          Output.text "No missing files found."]) :=
  main_confirmation noteVault "/v".toList "Y".toList ["/v/a.md".toList, "/v/b.md".toList]
    [("b".toList, [("/v/a.md".toList, 3)]), ("c".toList, [("/v/a.md".toList, 3)])]
    [("c".toList, [("/v/a.md".toList, 3)])] (by decide) (by decide) (by decide)

/-! ## Path names -/

theorem splitSep_of_not_mem (sep : Char) (s : Str) (h : sep ∉ s) : splitSep sep s = [s] := by
  induction s with
  | nil => rfl
  | cons c t ih =>
    have hc : c ≠ sep := fun hc => h (by simp [hc])
    have ht : sep ∉ t := fun ht => h (List.mem_cons_of_mem _ ht)
    simp [splitSep, hc, ih ht]

theorem splitSep_ne_nil (sep : Char) (s : Str) : splitSep sep s ≠ [] := by
  cases s with
  | nil => simp [splitSep]
  | cons c t =>
    unfold splitSep
    split
    · simp
    · split <;> simp

theorem splitSep_append_sep (sep : Char) (d s : Str) :
    splitSep sep (d ++ sep :: s) = splitSep sep d ++ splitSep sep s := by
  induction d with
  | nil => simp [splitSep]
  | cons c t ih =>
    by_cases hc : c = sep
    · simp [splitSep, hc, ih]
    · cases hsp : splitSep sep t with
      | nil => exact absurd hsp (splitSep_ne_nil sep t)
      | cons piece rest =>
        rw [hsp] at ih
        simp [splitSep, hc, ih, hsp]

theorem joinSep_concat (acc : List Str) (name : Str) :
    joinSep (acc ++ [name]) = if acc = [] then name else joinSep acc ++ '/' :: name := by
  induction acc with
  | nil => simp [joinSep]
  | cons c cs ih =>
    cases cs with
    | nil => simp [joinSep]
    | cons c2 cs2 =>
      have ih2 : joinSep (c2 :: (cs2 ++ [name])) = joinSep (c2 :: cs2) ++ '/' :: name := by
        simpa using ih
      have h3 : joinSep (c :: c2 :: (cs2 ++ [name])) =
          c ++ '/' :: joinSep (c2 :: (cs2 ++ [name])) := rfl
      simp only [List.cons_append]
      rw [h3, ih2]
      simp [joinSep]

theorem cleanStep_validName (rooted : Bool) (acc : List Str) (name : Str)
    (h : validName name = true) : cleanStep rooted acc name = acc ++ [name] := by
  simp only [validName, decide_eq_true_eq] at h
  obtain ⟨h1, _, h3, h4⟩ := h
  simp [cleanStep, h1, h3, h4]

theorem clean_ends_validName (s name : Str) (h : validName name = true)
    (hs : s = name ∨ ∃ d, s = d ++ '/' :: name) :
    ∃ pre, clean s = pre ++ name ∧ (pre = [] ∨ pre.getLast? = some '/') := by
  have hsl : '/' ∉ name := by
    simp only [validName, decide_eq_true_eq] at h
    exact h.2.1
  have hne : name ≠ [] := by
    simp only [validName, decide_eq_true_eq] at h
    exact h.1
  have hsplit : ∃ xs, splitSep '/' s = xs ++ [name] := by
    rcases hs with rfl | ⟨d, rfl⟩
    · exact ⟨[], by simp [splitSep_of_not_mem _ _ hsl]⟩
    · exact ⟨splitSep '/' d, by rw [splitSep_append_sep, splitSep_of_not_mem _ _ hsl]⟩
  obtain ⟨xs, hxs⟩ := hsplit
  unfold clean
  simp only [hxs, List.foldl_append, List.foldl_cons, List.foldl_nil, cleanStep_validName _ _ _ h,
    joinSep_concat]
  generalize List.foldl (cleanStep (isAbs s)) [] xs = acc
  by_cases hacc : acc = []
  · simp only [hacc, if_true]
    by_cases hab : isAbs s = true
    · exact ⟨['/'], by simp [hab], Or.inr rfl⟩
    · exact ⟨[], by simp [hab, hne], Or.inl rfl⟩
  · simp only [hacc, if_false]
    by_cases hab : isAbs s = true
    · refine ⟨'/' :: (joinSep acc ++ ['/']), by simp [hab], Or.inr ?_⟩
      rw [show '/' :: (joinSep acc ++ ['/']) = ('/' :: joinSep acc) ++ ['/'] by simp,
        List.getLast?_concat]
    · refine ⟨joinSep acc ++ ['/'], by simp [hab], Or.inr (List.getLast?_concat _)⟩

theorem join_ends_validName (d name : Str) (h : validName name = true) :
    ∃ pre, join d name = pre ++ name ∧ (pre = [] ∨ pre.getLast? = some '/') := by
  have hne : name ≠ [] := by
    simp only [validName, decide_eq_true_eq] at h
    exact h.1
  unfold join
  by_cases hd : d = []
  · simp only [hd, if_true, hne, if_false]
    exact clean_ends_validName name name h (Or.inl rfl)
  · simp only [hd, if_false, hne]
    exact clean_ends_validName _ name h (Or.inr ⟨d, rfl⟩)

theorem base_ends_validName (pre name : Str) (h : validName name = true)
    (hpre : pre = [] ∨ pre.getLast? = some '/') : base (pre ++ name) = name := by
  simp only [validName, decide_eq_true_eq] at h
  obtain ⟨hne, hsl, _, _⟩ := h
  have hrev : ∀ c ∈ name.reverse, (c != '/') = true := by
    intro c hc
    have : c ∈ name := List.mem_reverse.mp hc
    have hc2 : c ≠ '/' := fun hc2 => hsl (hc2 ▸ this)
    simpa using hc2
  have hdrop : (name.reverse ++ pre.reverse).dropWhile (fun c => c == '/') =
      name.reverse ++ pre.reverse := by
    obtain ⟨c, t, hct⟩ := List.exists_cons_of_ne_nil (by simpa using hne : name.reverse ≠ [])
    have hc := hrev c (by rw [hct]; exact List.mem_cons_self _ _)
    rw [hct, List.cons_append, List.dropWhile_cons]
    have : (c == '/') = false := by simpa using hc
    simp [this]
  have htake : (name.reverse ++ pre.reverse).takeWhile (fun c => c != '/') = name.reverse := by
    rw [List.takeWhile_append_of_pos hrev]
    rcases hpre with rfl | hl
    · simp
    · obtain ⟨ys, rfl⟩ := List.getLast?_eq_some_iff.mp hl
      simp
  unfold base
  have hnonempty : pre ++ name ≠ [] := by simp [hne]
  simp only [hnonempty, if_false, List.reverse_append, hdrop, htake, List.reverse_reverse, hne]

theorem base_join_validName (d name : Str) (h : validName name = true) :
    base (join d name) = name := by
  obtain ⟨pre, hj, hpre⟩ := join_ends_validName d name h
  rw [hj, base_ends_validName pre name h hpre]

theorem hasSuffix_iff (s suffix : Str) : hasSuffix s suffix = true ↔ ∃ t, s = t ++ suffix := by
  unfold hasSuffix
  rw [List.isSuffixOf_iff_suffix]
  constructor
  · rintro ⟨t, rfl⟩; exact ⟨t, rfl⟩
  · rintro ⟨t, rfl⟩; exact ⟨t, rfl⟩

theorem trimSuffix_append (t suffix : Str) : trimSuffix (t ++ suffix) suffix = t := by
  unfold trimSuffix
  rw [if_pos ((hasSuffix_iff _ _).mpr ⟨t, rfl⟩)]
  simp


/-! ## The walk and the reconciler -/

theorem mem_keys_iff_lookup {α β : Type} [BEq α] [LawfulBEq α] (l : List (α × β)) (k : α) :
    k ∈ l.map Prod.fst ↔ ∃ v, l.lookup k = some v := by
  induction l with
  | nil => simp [List.lookup]
  | cons e es ih =>
    obtain ⟨a, b⟩ := e
    by_cases hka : (k == a) = true
    · have := eq_of_beq hka
      subst this
      simp
    · have hka2 : (k == a) = false := by simpa using hka
      have hka3 : k ≠ a := fun h => hka (by simp [h])
      simp only [List.map_cons, List.mem_cons, hka3, false_or, ih, List.lookup_cons, hka2]

theorem lookup_filter_key {β : Type} (keep : Str → Bool) (l : List (Str × β)) (k : Str)
    (hk : keep k = true) : (l.filter (fun e => keep e.1)).lookup k = l.lookup k := by
  induction l with
  | nil => rfl
  | cons e es ih =>
    obtain ⟨a, b⟩ := e
    by_cases hka : k = a
    · subst hka
      simp [List.filter_cons, hk]
    · have hka2 : (k == a) = false := by simpa using hka
      by_cases hkeep : keep a = true
      · simp [List.filter_cons, hkeep, List.lookup_cons, hka2, ih]
      · simp [List.filter_cons, hkeep, List.lookup_cons, hka2, ih]

theorem mem_below {fs : FS} {root q : Path} :
    q ∈ below fs root ↔ q ∈ fs.nodes.map Prod.fst ∧ root <+: q ∧ q ≠ root := by
  unfold below
  rw [(List.perm_insertionSort _ _).mem_iff, List.mem_filter]
  simp only [Bool.and_eq_true, List.isPrefixOf_iff_prefix, bne_iff_ne, ne_eq]

theorem mem_keys_foldl_visits {γ β : Type} (cond : γ → Bool) (key : γ → Str) (val : γ → β)
    (visits : List γ) (start : List (Str × List β)) (t : Str) :
    t ∈ (visits.foldl (fun m v => if cond v then mapAppend (key v) (val v) m else m)
        start).map Prod.fst ↔
      t ∈ start.map Prod.fst ∨ ∃ v ∈ visits, cond v = true ∧ key v = t := by
  induction visits generalizing start with
  | nil => simp
  | cons v vs ih =>
    rw [List.foldl_cons, ih]
    by_cases hc : cond v = true
    · simp only [hc, if_true, mem_keys_mapAppend, List.mem_cons, exists_eq_or_imp, true_and]
      constructor
      · rintro ((rfl | h) | h)
        · exact Or.inr (Or.inl rfl)
        · exact Or.inl h
        · exact Or.inr (Or.inr h)
      · rintro (h | h | h)
        · exact Or.inl (Or.inr h)
        · exact Or.inl (Or.inl h.symm)
        · exact Or.inr h
    · simp [hc]

theorem walk_of_dir {fs : FS} {rootDir : Str} {root : Path}
    (h : lstat fs rootDir = .ok (root, Node.dir)) :
    walk fs rootDir = .ok ((rootDir, ⟨base rootDir, true⟩, []) ::
      (below fs root).map (fun q =>
        (((q.drop root.length).foldl join rootDir : Str),
          (⟨q.getLast?.getD [], fs.lookup q == some Node.dir⟩ : FileInfo),
          q.drop root.length))) := by
  simp [walk, h]

theorem wellFormed_names {fs : FS} (h : fs.wellFormed = true) {q : Path}
    (hq : q ∈ fs.nodes.map Prod.fst) : ∀ c ∈ q, validName c = true := by
  simp only [FS.wellFormed, decide_eq_true_eq] at h
  obtain ⟨e, he, rfl⟩ := List.mem_map.mp hq
  exact (h.2.2.2 e he).1

/-- Below a directory, the path name the walk passes for a location ends in
the name of that location. -/
theorem base_walk_path {fs : FS} (hwf : fs.wellFormed = true) {root q : Path} (rootDir : Str)
    (hq : q ∈ below fs root) :
    base ((q.drop root.length).foldl join rootDir) = q.getLast?.getD [] := by
  obtain ⟨hkeys, ⟨rel, rfl⟩, hne⟩ := mem_below.mp hq
  have hrel : rel ≠ [] := by
    rintro rfl
    exact hne (by simp)
  simp only [List.drop_left]
  obtain ⟨init, last, rfl⟩ : ∃ init last, rel = init ++ [last] := by
    refine ⟨rel.dropLast, rel.getLast hrel, ?_⟩
    exact (List.dropLast_append_getLast hrel).symm
  have hvalid : validName last = true :=
    wellFormed_names hwf hkeys last (by simp)
  rw [List.foldl_append, List.foldl_cons, List.foldl_nil, base_join_validName _ _ hvalid,
    ← List.append_assoc, List.getLast?_concat]
  rfl

theorem findExistingFiles_of_dir {fs : FS} {rootDir : Str} {root : Path}
    (hroot : lstat fs rootDir = .ok (root, Node.dir)) :
    findExistingFiles fs rootDir = .ok
      (((rootDir, (⟨base rootDir, true⟩ : FileInfo), ([] : List Str)) ::
        (below fs root).map (fun q =>
          (((q.drop root.length).foldl join rootDir : Str),
            (⟨q.getLast?.getD [], fs.lookup q == some Node.dir⟩ : FileInfo),
            q.drop root.length))).foldl
        (fun existingFiles v =>
          if !v.2.1.isDir && hasSuffix v.2.1.name mdExt then
            mapAppend (trimSuffix (base v.1) mdExt) (relOf v.2.2) existingFiles
          else existingFiles)
        []) := by
  simp only [findExistingFiles, walk_of_dir hroot]

theorem findExistingFiles_keys {fs : FS} (hwf : fs.wellFormed = true) {rootDir : Str}
    {root : Path} (hroot : lstat fs rootDir = .ok (root, Node.dir)) :
    ∃ existingFiles, findExistingFiles fs rootDir = .ok existingFiles ∧
      ∀ t, t ∈ existingFiles.map Prod.fst ↔ HasDocument fs root t := by
  refine ⟨_, findExistingFiles_of_dir hroot, ?_⟩
  intro t
  refine (@mem_keys_foldl_visits (Str × FileInfo × List Str) Str
    (fun v => !v.2.1.isDir && hasSuffix v.2.1.name mdExt)
    (fun v => trimSuffix (base v.1) mdExt) (fun v => relOf v.2.2) _ [] t).trans ?_
  simp only [List.map_nil, List.not_mem_nil, false_or, List.mem_cons, exists_eq_or_imp,
    Bool.not_true, Bool.false_and, Bool.false_eq_true, false_and, List.mem_map,
    exists_exists_and_eq_and]
  have hrootdir : fs.lookup root = some Node.dir := (lstat_dir_iff.mp hroot).2
  constructor
  · rintro ⟨q, hq, hcond, hkey⟩
    obtain ⟨hkeys, hpre, hne⟩ := mem_below.mp hq
    rw [base_walk_path hwf rootDir hq] at hkey
    simp only [Bool.and_eq_true, Bool.not_eq_true', beq_eq_false_iff_ne, ne_eq] at hcond
    obtain ⟨hnd, hsuf⟩ := hcond
    obtain ⟨n, hn⟩ := (mem_keys_iff_lookup fs.nodes q).mp hkeys
    have hn2 : fs.lookup q = some n := hn
    cases n with
    | dir => exact absurd hn2 hnd
    | file content =>
      refine ⟨q, content, hpre, hn2, ?_⟩
      obtain ⟨u, hu⟩ := (hasSuffix_iff _ _).mp hsuf
      rw [hu, trimSuffix_append] at hkey
      subst hkey
      cases hl : q.getLast? with
      | none =>
        rw [hl] at hu
        simp [mdExt] at hu
      | some name =>
        rw [hl] at hu
        simp only [Option.getD_some] at hu
        rw [hu]
  · rintro ⟨q, content, hpre, hfile, hlast⟩
    have hkeys : q ∈ fs.nodes.map Prod.fst :=
      (mem_keys_iff_lookup fs.nodes q).mpr ⟨_, hfile⟩
    have hne : q ≠ root := by
      rintro rfl
      rw [hrootdir] at hfile
      simp at hfile
    have hq : q ∈ below fs root := mem_below.mpr ⟨hkeys, hpre, hne⟩
    refine ⟨q, hq, ?_, ?_⟩
    · simp only [hfile, hlast, Option.getD_some, Bool.and_eq_true, Bool.not_eq_true',
        beq_eq_false_iff_ne, ne_eq]
      exact ⟨by simp, (hasSuffix_iff _ _).mpr ⟨t, rfl⟩⟩
    · rw [base_walk_path hwf rootDir hq, hlast]
      simp [trimSuffix_append]

/-- C1: for a vault, that is a well-formed filesystem in which `rootDir`
names a directory, `findMissingFiles` succeeds, and the map it returns has as
keys exactly the keys of the link index for which no document under the root
has that base name, each with the occurrence list of the link index. -/
theorem findMissingFiles_spec (fs : FS) (rootDir : Str) (root : Path) (allLinks : LinkMap)
    (hwf : fs.wellFormed = true) (hroot : lstat fs rootDir = .ok (root, Node.dir)) :
    ∃ missingFiles, findMissingFiles fs rootDir allLinks = .ok missingFiles ∧
      (∀ t, t ∈ missingFiles.map Prod.fst ↔
        t ∈ allLinks.map Prod.fst ∧ ¬ HasDocument fs root t) ∧
      ∀ t ∈ missingFiles.map Prod.fst, missingFiles.lookup t = allLinks.lookup t := by
  obtain ⟨existingFiles, hex, hkeys⟩ := findExistingFiles_keys hwf hroot
  have hnone : ∀ t, (existingFiles.lookup t).isNone = true ↔ ¬ HasDocument fs root t := by
    intro t
    rw [← hkeys t, mem_keys_iff_lookup]
    cases h : existingFiles.lookup t <;> simp [h]
  have hmem : ∀ t, t ∈ (allLinks.filter
      (fun entry => (existingFiles.lookup entry.1).isNone)).map Prod.fst ↔
      t ∈ allLinks.map Prod.fst ∧ ¬ HasDocument fs root t := by
    intro t
    simp only [List.mem_map, List.mem_filter]
    constructor
    · rintro ⟨e, ⟨he, hn⟩, rfl⟩
      exact ⟨⟨e, he, rfl⟩, (hnone _).mp hn⟩
    · rintro ⟨⟨e, he, rfl⟩, hn⟩
      exact ⟨e, ⟨he, (hnone _).mpr hn⟩, rfl⟩
  refine ⟨_, by simp only [findMissingFiles, hex], hmem, ?_⟩
  intro t ht
  exact lookup_filter_key (fun k => (existingFiles.lookup k).isNone) allLinks t
    ((hnone t).mpr ((hmem t).mp ht).2)

/-- C1, at the scenario of the specification: `a.md` links to `b` and `c` on
line 3, `b.md` exists, `c.md` does not. -/
theorem findMissingFiles_spec_witness :
    findMissingFiles noteVault "/v".toList
        [("b".toList, [("/v/a.md".toList, 3)]), ("c".toList, [("/v/a.md".toList, 3)])] =
      .ok [("c".toList, [("/v/a.md".toList, 3)])] ∧
    ∃ missingFiles, findMissingFiles noteVault "/v".toList
        [("b".toList, [("/v/a.md".toList, 3)]), ("c".toList, [("/v/a.md".toList, 3)])] =
        .ok missingFiles ∧
      (∀ t, t ∈ missingFiles.map Prod.fst ↔
        t ∈ [("b".toList, [("/v/a.md".toList, 3)]),
          ("c".toList, [("/v/a.md".toList, 3)])].map Prod.fst ∧
          ¬ HasDocument noteVault ["v".toList] t) ∧
      ∀ t ∈ missingFiles.map Prod.fst, missingFiles.lookup t =
        [("b".toList, [("/v/a.md".toList, 3)]),
          ("c".toList, [("/v/a.md".toList, 3)])].lookup t :=
  ⟨by decide, findMissingFiles_spec noteVault "/v".toList ["v".toList] _ (by decide) (by decide)⟩


end LinkChecker
